import Mathlib

namespace Pinnochio

/-- Comparison operators of a version specifier clause (PEP 440 fragment). -/
inductive Op where
  | ge | le | gt | lt | eq | ne | compatible | arbitrary
deriving DecidableEq, Repr

/-- One version specifier clause, e.g. `>=2.25.0`. -/
structure Specifier where
  op : Op
  version : String
deriving DecidableEq, Repr

/-- Parsed dependency pin: `packaging.requirements.Requirement`
restricted to the fragment exercised by this repository
(name, extras, comparator clauses; no spaces, markers or URLs). -/
structure Requirement where
  name : String
  extras : List String
  specs : List Specifier
deriving DecidableEq, Repr

def isNameChar (c : Char) : Bool :=
  c.isAlpha || c.isDigit || c == '.' || c == '_' || c == '-'

def isVersionChar (c : Char) : Bool :=
  isNameChar c || c == '*' || c == '+' || c == '!'

/-- Parse one comparison operator off the front of the character stream. -/
def parseOp (cs : List Char) : Option (Op × List Char) :=
  if cs.take 3 = ['=', '=', '='] then some (.arbitrary, cs.drop 3)
  else if cs.take 2 = ['=', '='] then some (.eq, cs.drop 2)
  else if cs.take 2 = ['!', '='] then some (.ne, cs.drop 2)
  else if cs.take 2 = ['~', '='] then some (.compatible, cs.drop 2)
  else if cs.take 2 = ['>', '='] then some (.ge, cs.drop 2)
  else if cs.take 2 = ['<', '='] then some (.le, cs.drop 2)
  else if cs.take 1 = ['>'] then some (.gt, cs.drop 1)
  else if cs.take 1 = ['<'] then some (.lt, cs.drop 1)
  else none

/-- Parse a non-empty comma-separated list of specifier clauses. -/
def parseSpecsAux : Nat → List Char → Option (List Specifier)
  | 0, _ => none
  | fuel + 1, cs =>
    match parseOp cs with
    | none => none
    | some (op, rest) =>
      let ver := rest.takeWhile isVersionChar
      let rest' := rest.dropWhile isVersionChar
      if ver.isEmpty then none
      else
        match rest' with
        | [] => some [⟨op, ver.asString⟩]
        | ',' :: more => (parseSpecsAux fuel more).map (⟨op, ver.asString⟩ :: ·)
        | _ => none

def parseSpecs (cs : List Char) : Option (List Specifier) :=
  if cs.isEmpty then some [] else parseSpecsAux cs.length cs

/-- Parse a non-empty comma-separated extras list terminated by `]`. -/
def parseExtrasAux : Nat → List Char → Option (List String × List Char)
  | 0, _ => none
  | fuel + 1, cs =>
    let ident := cs.takeWhile isNameChar
    let rest := cs.dropWhile isNameChar
    if ident.isEmpty then none
    else
      match rest with
      | ']' :: rest' => some ([ident.asString], rest')
      | ',' :: rest' => (parseExtrasAux fuel rest').map (fun er => (ident.asString :: er.1, er.2))
      | _ => none

/-- `packaging.requirements.Requirement(pin)` on the space-free
name/extras/specifier fragment: `name[e1,e2]op1v1,op2v2,...`. -/
def parseRequirement (s : String) : Option Requirement :=
  let cs := s.data
  let nameCs := cs.takeWhile isNameChar
  let rest := cs.dropWhile isNameChar
  if nameCs.isEmpty then none
  else
    match rest with
    | '[' :: rest' =>
      match parseExtrasAux (rest'.length + 1) rest' with
      | none => none
      | some (extras, rest'') => (parseSpecs rest'').map (fun sp => ⟨nameCs.asString, extras, sp⟩)
    | _ => (parseSpecs rest).map (fun sp => ⟨nameCs.asString, [], sp⟩)

/-- `split_pin`: name and specifier set of a pin, or `InvalidRequirement`. -/
def split_pin (pin : String) : Option (String × List Specifier) :=
  (parseRequirement pin).map (fun r => (r.name, r.specs))

def digitsToNat (ds : List Char) : Nat :=
  ds.foldl (fun n c => n * 10 + (c.toNat - '0'.toNat)) 0

/-- Dotted run of numeric release components: `1.3.0rc2` gives `[1, 3, 0]`
leaving `rc2`. -/
def parseComponentsAux : Nat → List Char → List Nat
  | 0, _ => []
  | fuel + 1, cs =>
    let ds := cs.takeWhile Char.isDigit
    let rest := cs.dropWhile Char.isDigit
    if ds.isEmpty then []
    else
      match rest with
      | '.' :: rest' =>
        match parseComponentsAux fuel rest' with
        | [] => [digitsToNat ds]
        | ns => digitsToNat ds :: ns
      | _ => [digitsToNat ds]

/-- `packaging.version.Version(s)` reduced to its `(major, minor, micro)`
triple; an optional `N!` epoch is skipped and any pre-release/post-release
suffix is ignored (suffix validity is not modelled). -/
def parseVersion (s : String) : Option (Nat × Nat × Nat) :=
  let cs := s.data
  let epochDs := cs.takeWhile Char.isDigit
  let cs :=
    match cs.dropWhile Char.isDigit with
    | '!' :: rest => if epochDs.isEmpty then cs else rest
    | _ => cs
  match parseComponentsAux (cs.length + 1) cs with
  | [] => none
  | ns => some (ns.headD 0, (ns.drop 1).headD 0, (ns.drop 2).headD 0)

inductive PinningStrategy where
  | major | minor | patch
deriving DecidableEq, Repr

structure Config where
  pinning_strategy : PinningStrategy
deriving DecidableEq, Repr

/-- Python exceptions that the repository raises or catches. -/
inductive PyErr where
  | keyError (msg : String)
  | typeError
  | attributeError
  | valueError (msg : String)
  | invalidRequirement (msg : String)
  | invalidVersion (msg : String)
deriving DecidableEq, Repr

def insertSorted (x : String) : List String → List String
  | [] => [x]
  | y :: ys => if x ≤ y then x :: y :: ys else y :: insertSorted x ys

/-- Python `sorted` on a list of strings (ascending lexicographic by
code point).  On strings the result is determined by the multiset of
values — duplicate keys are identical strings — so a structurally
recursive insertion sort produces exactly Python's output. -/
def pySortedStr (l : List String) : List String :=
  l.foldr insertSorted []

/-- Python `",".join(es)`. -/
def joinComma : List String → String
  | [] => ""
  | [e] => e
  | e :: es => e ++ "," ++ joinComma es

/-- The extras suffix `[e1,e2]` re-emitted with `sorted(req.extras)`
(a Python `set`, hence deduplicated) — empty string when no extras. -/
def extrasStr (extras : List String) : String :=
  if extras.isEmpty then ""
  else "[" ++ joinComma (pySortedStr extras.dedup) ++ "]"

def synthUpper (strategy : PinningStrategy) (major minor micro : Nat) : String :=
  match strategy with
  | .major => Nat.repr (major + 1) ++ ".0.0"
  | .minor => Nat.repr major ++ "." ++ Nat.repr (minor + 1) ++ ".0"
  | .patch => Nat.repr major ++ "." ++ Nat.repr minor ++ "." ++ Nat.repr (micro + 1)

def hasUpperSpec (s : Specifier) : Bool := s.op == .lt || s.op == .le

/-- `_add_upper_bound(pin, config)`: returns the pin unchanged when an
upper bound (`<`/`<=`) exists, otherwise synthesizes one from the first
`>=` clause per the pinning strategy. (The source re-parses `pin` a second
time for the extras; that parse repeats the first and cannot fail, so the
`except InvalidRequirement` fallback there is unreachable and a single
parse is used here.) -/
def _add_upper_bound (pin : String) (config : Config) : Except PyErr String :=
  match parseRequirement pin with
  | none => .error (.invalidRequirement ("Invalid dependency pin " ++ pin))
  | some r =>
    if r.specs.any hasUpperSpec then .ok pin
    else
      match r.specs.find? (fun s => s.op == .ge) with
      | none => .error (.valueError ("Cannot add upper bound: no >= specifier found in " ++ pin))
      | some sp =>
        match parseVersion sp.version with
        | none => .error (.invalidVersion sp.version)
        | some (major, minor, micro) =>
          .ok (r.name ++ extrasStr r.extras ++ ">=" ++ sp.version ++ ","
            ++ "<" ++ synthUpper config.pinning_strategy major minor micro)

/-- tomlkit value tree (the fragment of TOML this repository touches). -/
inductive Toml where
  | str (s : String)
  | int (n : Int)
  | bool (b : Bool)
  | arr (items : List Toml)
  | table (entries : List (String × Toml))

def lookupKV (kvs : List (String × Toml)) (k : String) : Option Toml :=
  match kvs with
  | [] => none
  | (k', v) :: rest => if k' = k then some v else lookupKV rest k

/-- tomlkit `table[k] = v`: replace in place, or append when absent. -/
def updateKV (kvs : List (String × Toml)) (k : String) (v : Toml) : List (String × Toml) :=
  match kvs with
  | [] => [(k, v)]
  | (k', v') :: rest => if k' = k then (k, v) :: rest else (k', v') :: updateKV rest k v

/-- Python `str(item)` on a tomlkit value (containers are never
stringified by the repository, so their rendering is left empty). -/
def tomlStr (t : Toml) : String :=
  match t with
  | .str s => s
  | .int n => toString n
  | .bool b => if b then "true" else "false"
  | .arr _ => ""
  | .table _ => ""

/-- Python iteration `[str(dep) for dep in v]`: arrays yield items,
strings yield characters, tables yield keys, scalars raise TypeError. -/
def tomlList (t : Toml) : Except PyErr (List String) :=
  match t with
  | .arr items => .ok (items.map tomlStr)
  | .str s => .ok (s.data.map (fun c => String.singleton c))
  | .table kvs => .ok (kvs.map (fun kv => kv.1))
  | _ => .error .typeError

/-- Python `t[k]`: KeyError on a missing table key, TypeError when
subscripting a non-table with a string key. -/
def index (t : Toml) (k : String) : Except PyErr Toml :=
  match t with
  | .table kvs =>
    match lookupKV kvs k with
    | some v => .ok v
    | none => .error (.keyError k)
  | _ => .error .typeError

/-- Python `k in t` for the table case (the only case the repository
reaches; membership in non-mappings is not modelled). -/
def memItem (t : Toml) (k : String) : Except PyErr Bool :=
  match t with
  | .table kvs => .ok (lookupKV kvs k).isSome
  | _ => .error .typeError

def getToml (t : Toml) : List String → Except PyErr Toml
  | [] => .ok t
  | k :: rest => do
    let v ← index t k
    getToml v rest

/-- Navigate to the parent table of the last path component and assign
into it (tomlkit `__setitem__`: update in place or append). -/
def setToml (t : Toml) (path : List String) (v : Toml) : Except PyErr Toml :=
  match path with
  | [] => .ok v
  | [k] =>
    match t with
    | .table kvs => .ok (.table (updateKV kvs k v))
    | _ => .error .typeError
  | k :: rest => do
    let child ← index t k
    let child' ← setToml child rest v
    match t with
    | .table kvs => .ok (.table (updateKV kvs k child'))
    | _ => .error .typeError

/-- The nested location of each dependency group, mirroring the three
branches of `get_dependency_array` / `set_dependency_array`. -/
def groupPath (group_name : String) : List String :=
  if group_name = "dependencies" then ["project", "dependencies"]
  else if group_name = "dev" then ["dependency-groups", "dev"]
  else ["project", "optional-dependencies", group_name]

def get_dependency_array (doc : Toml) (group_name : String) : Except PyErr Toml :=
  getToml doc (groupPath group_name)

def set_dependency_array (doc : Toml) (group_name : String) (array : Toml) : Except PyErr Toml :=
  setToml doc (groupPath group_name) array

/-- `update_dependencies_in_group`: re-read the group's current entries
from the document, transform them, and write a rebuilt multiline array
back.  (`transform_fn` may raise, so it returns `Except` here.) -/
def update_dependencies_in_group (doc : Toml) (group_name : String)
    (transform_fn : List String → Except PyErr (List String)) : Except PyErr Toml := do
  let arrT ← get_dependency_array doc group_name
  let current_deps ← tomlList arrT
  let transformed_deps ← transform_fn current_deps
  set_dependency_array doc group_name (.arr (transformed_deps.map .str))

abbrev DependencyGroups := List (String × List String)

inductive CheckStatus where
  | passed | failed | fixed
deriving DecidableEq, Repr

structure CheckResult where
  status : CheckStatus
  issues : List (String × List String)
deriving DecidableEq, Repr

/-- `defaultdict(list)` append: extend the first entry with this key, or
append a fresh singleton entry at the end. -/
def dictAppend (d : List (String × List String)) (k : String) (v : String) :
    List (String × List String) :=
  match d with
  | [] => [(k, [v])]
  | (k', vs) :: rest => if k' = k then (k', vs ++ [v]) :: rest else (k', vs) :: dictAppend rest k v

/-- Plain dict assignment `d[k] = v`: overwrite in place or append. -/
def dictSet (d : List (String × List String)) (k : String) (v : List String) :
    List (String × List String) :=
  match d with
  | [] => [(k, v)]
  | (k', v') :: rest => if k' = k then (k', v) :: rest else (k', v') :: dictSet rest k v

def lookupG (d : List (String × List String)) (k : String) : Option (List String) :=
  match d with
  | [] => none
  | (k', v) :: rest => if k' = k then some v else lookupG rest k

def listOf (d : List (String × List String)) (k : String) : List String :=
  (lookupG d k).getD []

/-- The raw-string test `">" in pin and "<" not in pin` that
`check_upper_bounds` applies to every pin. -/
def flaggedUnpinned (pin : String) : Bool :=
  pin.data.contains '>' && !(pin.data.contains '<')

def collectUnpinned (groups : DependencyGroups) : List (String × List String) :=
  groups.foldl
    (fun d gp => gp.2.foldl
      (fun d pin => if flaggedUnpinned pin then dictAppend d gp.1 pin else d) d)
    []

/-- Python's left-to-right evaluation of an effectful list
comprehension: the first raising element aborts the whole list. -/
def exceptMapList (f : α → Except PyErr β) : List α → Except PyErr (List β)
  | [] => .ok []
  | x :: xs => do
    let y ← f x
    let ys ← exceptMapList f xs
    .ok (y :: ys)

/-- One group's fix attempt in `check_upper_bounds`: the whole
`update_dependencies_in_group` call sits in a `try`, so any raising pin
abandons the rewrite of the entire group and leaves the document as-is. -/
def fixGroupUpper (doc : Toml) (group_name : String) (pins : List String)
    (config : Config) : Toml :=
  match update_dependencies_in_group doc group_name
      (fun deps => exceptMapList (fun dep =>
        if pins.contains dep then _add_upper_bound dep config else .ok dep) deps) with
  | .ok doc' => doc'
  | .error _ => doc

def check_upper_bounds (groups : DependencyGroups) (doc : Toml) (config : Config)
    (fix : Bool) : CheckResult × Toml :=
  let unpinned := collectUnpinned groups
  if unpinned = [] then (⟨.passed, []⟩, doc)
  else if fix then
    (⟨.fixed, unpinned⟩,
      unpinned.foldl (fun d gp => fixGroupUpper d gp.1 gp.2 config) doc)
  else (⟨.failed, unpinned⟩, doc)

def check_all_groups_are_sorted (groups : DependencyGroups) (doc : Toml) (_config : Config)
    (fix : Bool) : Except PyErr (CheckResult × Toml) :=
  let unsorted := groups.foldl
    (fun d gp => if gp.2 ≠ pySortedStr gp.2 then dictSet d gp.1 gp.2 else d) []
  if unsorted = [] then .ok (⟨.passed, []⟩, doc)
  else if fix then do
    let doc' ← unsorted.foldlM
      (fun d gp => update_dependencies_in_group d gp.1 (fun deps => .ok (pySortedStr deps)))
      doc
    .ok (⟨.fixed, unsorted⟩, doc')
  else .ok (⟨.failed, unsorted⟩, doc)

/-- `itertools.combinations(groups, 2)` over dict iteration order. -/
def pairsOf : List α → List (α × α)
  | [] => []
  | x :: xs => xs.map (fun y => (x, y)) ++ pairsOf xs

def check_group_overlaps_match (groups : DependencyGroups) (doc : Toml) (_config : Config)
    (_fix : Bool) : CheckResult × Toml :=
  let drift := (pairsOf groups).foldl
    (fun d gab =>
      gab.1.2.foldl (fun d pin_a =>
        gab.2.2.foldl (fun d pin_b =>
          match split_pin pin_a, split_pin pin_b with
          | some (dep_a, _), some (dep_b, _) =>
            if dep_a = dep_b ∧ pin_a ≠ pin_b then
              dictAppend (dictAppend d gab.1.1 pin_a) gab.2.1 pin_b
            else d
          | _, _ => d) d) d)
    []
  if drift = [] then (⟨.passed, []⟩, doc)
  else (⟨.failed, drift⟩, doc)

/-- The body of the innermost overlap loop: the pin parses
(`except InvalidRequirement` skips it otherwise) and its name equals
the primary pin's parsed name. -/
def pinNameMatches (core_dep : String) (pin : String) : Bool :=
  match split_pin pin with
  | none => false
  | some (dep, _) => core_dep == dep

def collectRedundant (core : List String) (groups : DependencyGroups) :
    List (String × List String) :=
  core.foldl
    (fun d core_pin =>
      match split_pin core_pin with
      | none => d
      | some (core_dep, _) =>
        groups.foldl
          (fun d gp =>
            if gp.1 = "dependencies" then d
            else gp.2.foldl
              (fun d pin => if pinNameMatches core_dep pin then dictAppend d gp.1 pin else d)
              d)
          d)
    []

/-- Python `groups["dependencies"]`: KeyError when absent. -/
def groupsPrimary (groups : DependencyGroups) : Except PyErr (List String) :=
  match lookupG groups "dependencies" with
  | some l => .ok l
  | none => .error (.keyError "dependencies")

def check_no_overlap_between_core_deps_and_groups (groups : DependencyGroups) (doc : Toml)
    (_config : Config) (fix : Bool) : Except PyErr (CheckResult × Toml) := do
  let core ← groupsPrimary groups
  let redundant_pins := collectRedundant core groups
  if redundant_pins = [] then .ok (⟨.passed, []⟩, doc)
  else if fix then do
    let doc' ← redundant_pins.foldlM
      (fun d gp => update_dependencies_in_group d gp.1
        (fun deps => .ok (deps.filter (fun dep => !gp.2.contains dep))))
      doc
    .ok (⟨.fixed, redundant_pins⟩, doc')
  else .ok (⟨.failed, redundant_pins⟩, doc)

/-- `load_config(doc)`: `[tool.pinnochio]` with a recognized
`pinning-strategy` value, defaulting to MAJOR. -/
def load_config (doc : Toml) : Except PyErr Config := do
  let toolMem ← memItem doc "tool"
  if !toolMem then .ok ⟨.major⟩
  else do
    let tool ← index doc "tool"
    let pinMem ← memItem tool "pinnochio"
    if !pinMem then .ok ⟨.major⟩
    else do
      let config_table ← index tool "pinnochio"
      match config_table with
      | .table kvs =>
        match lookupKV kvs "pinning-strategy" with
        | none => .ok ⟨.major⟩
        | some v =>
          match tomlStr v with
          | "major" => .ok ⟨.major⟩
          | "minor" => .ok ⟨.minor⟩
          | "patch" => .ok ⟨.patch⟩
          | s => .error (.valueError ("Invalid pinning-strategy " ++ s))
      | _ => .error (.valueError "[tool.pinnochio] must be a table in pyproject.toml")

/-- Python dict merge `{"dependencies": ..., "dev": ..., **optional}`:
later keys overwrite earlier ones in place. -/
def dictMerge (base : List (String × List String)) (extra : List (String × List String)) :
    List (String × List String) :=
  extra.foldl (fun d kv => dictSet d kv.1 kv.2) base

/-- `project_table.get("optional-dependencies", {}).items()`: absent
defaults to an empty mapping; `.items()` on a present non-mapping value
raises AttributeError. -/
def optionalItems (project_table : Toml) : Except PyErr (List (String × Toml)) :=
  match lookupKV (match project_table with | .table kvs => kvs | _ => []) "optional-dependencies" with
  | none => .ok []
  | some (.table kvs) => .ok kvs
  | some _ => .error .attributeError

/-- `load_uv_dependencies` on an already-parsed document (file reading
and TOML parsing are external collaborators). -/
def load_uv_dependencies (doc : Toml) : Except PyErr (DependencyGroups × Config) := do
  let projMem ← memItem doc "project"
  if !projMem then .error (.keyError "Missing [project] section in pyproject.toml")
  else do
    let project_table ← index doc "project"
    let depMem ← memItem project_table "dependencies"
    if !depMem then .error (.keyError "Missing [project.dependencies] in pyproject.toml")
    else do
      let dependencies ← index project_table "dependencies"
      let dgMem ← memItem doc "dependency-groups"
      if !dgMem then .error (.keyError "Missing [dependency-groups] section in pyproject.toml")
      else do
        let dependency_groups_table ← index doc "dependency-groups"
        let devMem ← memItem dependency_groups_table "dev"
        if !devMem then .error (.keyError "Missing [dependency-groups.dev] in pyproject.toml")
        else do
          let dev_deps ← index dependency_groups_table "dev"
          let depsL ← tomlList dependencies
          let devL ← tomlList dev_deps
          let optItems ← optionalItems project_table
          let optL ← exceptMapList (fun kv => do
            let l ← tomlList kv.2
            Except.ok (kv.1, l)) optItems
          let groups := dictMerge [("dependencies", depsL), ("dev", devL)] optL
          let config ← load_config doc
          .ok (groups, config)

/-- The check sequence of `main`, threading the document through the
rules in their fixed order. -/
def run_checks (groups : DependencyGroups) (doc : Toml) (config : Config) (fix : Bool) :
    Except PyErr (List CheckResult × Toml) := do
  let (r1, d1) := check_upper_bounds groups doc config fix
  let (r2, d2) ← check_all_groups_are_sorted groups d1 config fix
  let (r3, d3) := check_group_overlaps_match groups d2 config fix
  let (r4, d4) ← check_no_overlap_between_core_deps_and_groups groups d3 config fix
  .ok ([r1, r2, r3, r4], d4)

/-- Exit-code computation of `main` after a successful load: 0/1 from
`has_issues` and `all_fixed`, paired with the final document state. -/
def main_exit (groups : DependencyGroups) (doc : Toml) (config : Config) (fix : Bool) :
    Except PyErr (Nat × Toml) := do
  let (results, d) ← run_checks groups doc config fix
  let has_issues := results.any (fun r => !r.issues.isEmpty)
  let all_fixed := results.all (fun r => r.status == .passed || r.status == .fixed)
  if fix && has_issues then
    .ok ((if all_fixed then 0 else 1), d)
  else
    .ok ((if has_issues then 1 else 0), d)

def egDoc : Toml := .table
  [("project", .table [("dependencies", .arr [.str "pkg>2.0.0"])]),
   ("dependency-groups", .table [("dev", .arr [])])]

def egGroups : DependencyGroups := [("dependencies", ["pkg>2.0.0"]), ("dev", [])]

/-- The spec's flagging condition for the upper-bound rule, stated from
its own words (4.2): the constraint set has a lower bound (a `>=`
clause) and no upper bound (no clause with operator `<` or `<=`).
Kept separate from `flaggedUnpinned` (the condition the code applies)
so the two can be compared. -/
def specFlagLowerNoUpper (pin : String) : Bool :=
  match parseRequirement pin with
  | none => false
  | some r => r.specs.any (fun s => s.op == .ge) && !(r.specs.any hasUpperSpec)

/-- The status/issues relationships every rule's `CheckResult` is
claimed to satisfy. -/
def resultInv (fix : Bool) (r : CheckResult) : Prop :=
  (r.status = .passed ↔ r.issues = []) ∧
  (r.issues ≠ [] → r.status = .failed ∨ r.status = .fixed) ∧
  (r.status = .fixed → fix = true)

def c4Doc : Toml := .table
  [("project", .table [("dependencies", .arr [.str "aaa>=1.0.0", .str "bbb>2.0.0"])]),
   ("dependency-groups", .table [("dev", .arr [])])]

def c4Groups : DependencyGroups :=
  [("dependencies", ["aaa>=1.0.0", "bbb>2.0.0"]), ("dev", [])]

def c4bDoc : Toml := .table
  [("project", .table [("dependencies", .arr [.str "aaa>=1.0.0", .str "bbb>2.0.0"])]),
   ("dependency-groups", .table [("dev", .arr [.str "ccc>=1.0.0"])])]

def c4bGroups : DependencyGroups :=
  [("dependencies", ["aaa>=1.0.0", "bbb>2.0.0"]), ("dev", ["ccc>=1.0.0"])]

/-- `c4bDoc` after the upper-bound fix: the `dependencies` group is
untouched (its pin `bbb>2.0.0` failed to synthesize, aborting the whole
group) while `dev` was rewritten. -/
def c4bDocFixed : Toml := .table
  [("project", .table [("dependencies", .arr [.str "aaa>=1.0.0", .str "bbb>2.0.0"])]),
   ("dependency-groups", .table [("dev", .arr [.str "ccc>=1.0.0,<2.0.0"])])]

/-- A document whose `[project.optional-dependencies]` exists but is a
string rather than a table. -/
def c7Doc : Toml := .table
  [("project", .table
      [("dependencies", .arr [.str "aaa>=1.0.0"]),
       ("optional-dependencies", .str "oops")]),
   ("dependency-groups", .table [("dev", .arr [.str "bbb>=1.0.0"])])]

def c7GoodDoc : Toml := .table
  [("project", .table [("dependencies", .arr [.str "aaa>=1.0.0"])]),
   ("dependency-groups", .table [("dev", .arr [.str "bbb>=1.0.0"])])]

/-- The current string entries of one group of the document (the
read-back `update_dependencies_in_group` performs before transforming). -/
def getDeps (doc : Toml) (group_name : String) : Except PyErr (List String) := do
  let a ← get_dependency_array doc group_name
  tomlList a

/-- Two paths that part ways at some component: writing through one
cannot be observed through the other. -/
def PathsDiffer : List String → List String → Prop
  | a :: p, b :: q => a ≠ b ∨ (a = b ∧ PathsDiffer p q)
  | _, _ => False

def c10Groups : DependencyGroups :=
  [("dependencies", ["pandas>=1.3.0,<2.0.0"]), ("ml", ["pandas>=1.3.0"])]

def c10Doc : Toml := .table
  [("project", .table
      [("dependencies", .arr [.str "pandas>=1.3.0,<2.0.0"]),
       ("optional-dependencies", .table [("ml", .arr [.str "pandas>=1.3.0"])])])]

/-- `c10Doc` after the full fix pipeline: the upper-bound fix rewrote
`ml`'s pin to `pandas>=1.3.0,<2.0.0`, and the later overlap-removal fix
— although it flagged that very pin — removed nothing, because it
filters by the load-time string `pandas>=1.3.0` which no longer occurs
in the document. -/
def c10DocFinal : Toml := .table
  [("project", .table
      [("dependencies", .arr [.str "pandas>=1.3.0,<2.0.0"]),
       ("optional-dependencies", .table [("ml", .arr [.str "pandas>=1.3.0,<2.0.0"])])])]

def c6Groups : DependencyGroups :=
  [("dependencies", ["pandas>=1.3.0,<2"]),
   ("ml", ["pandas>=1.3.0,<2", "scikit-learn>=1.0.0"])]

def c6Doc : Toml := .table
  [("project", .table
      [("dependencies", .arr [.str "pandas>=1.3.0,<2"]),
       ("optional-dependencies", .table
          [("ml", .arr [.str "pandas>=1.3.0,<2", .str "scikit-learn>=1.0.0"])])])]

/-- The overlap rule's results on the `c10` pipeline run (upper-bound,
sort, drift, overlap). -/
def c10OverlapResult : CheckResult := ⟨.fixed, [("ml", ["pandas>=1.3.0"])]⟩

def c10Results : List CheckResult :=
  [⟨.fixed, [("ml", ["pandas>=1.3.0"])]⟩,
   ⟨.passed, []⟩,
   ⟨.failed, [("dependencies", ["pandas>=1.3.0,<2.0.0"]), ("ml", ["pandas>=1.3.0"])]⟩,
   c10OverlapResult]

/-- `c6Doc` after the overlap-removal fix: `ml` keeps only
`scikit-learn>=1.0.0`, in its original position. -/
def c6DocF : Toml := .table
  [("project", .table
      [("dependencies", .arr [.str "pandas>=1.3.0,<2"]),
       ("optional-dependencies", .table
          [("ml", .arr [.str "scikit-learn>=1.0.0"])])])]

/-! ## Theorems -/

/-- C5: the drift rule (`check_group_overlaps_match`) returns the
document unchanged for every input and every value of `fix`, and its
status is `FAILED` whenever issues were found (it never returns
`FIXED`). -/
theorem drift_rule_never_mutates (groups : DependencyGroups) (doc : Toml)
    (config : Config) (fix : Bool) :
    (check_group_overlaps_match groups doc config fix).2 = doc ∧
    ((check_group_overlaps_match groups doc config fix).1.issues ≠ [] →
      (check_group_overlaps_match groups doc config fix).1.status = .failed) ∧
    (check_group_overlaps_match groups doc config fix).1.status ≠ .fixed := by
  unfold check_group_overlaps_match
  by_cases h : (pairsOf groups).foldl
      (fun d gab =>
        gab.1.2.foldl (fun d pin_a =>
          gab.2.2.foldl (fun d pin_b =>
            match split_pin pin_a, split_pin pin_b with
            | some (dep_a, _), some (dep_b, _) =>
              if dep_a = dep_b ∧ pin_a ≠ pin_b then
                dictAppend (dictAppend d gab.1.1 pin_a) gab.2.1 pin_b
              else d
            | _, _ => d) d) d)
      [] = [] <;> simp [h]

/-- C5 witness: on a concrete drifted input the document comes back
untouched with status `FAILED` even though `fix` was requested. -/
theorem drift_rule_never_mutates_witness :
    (check_group_overlaps_match
        [("dependencies", ["pandas>=1.3.0,<2"]), ("ml", ["pandas>=1.4.0,<2"])]
        egDoc ⟨.major⟩ true).1.issues ≠ [] ∧
    (check_group_overlaps_match
        [("dependencies", ["pandas>=1.3.0,<2"]), ("ml", ["pandas>=1.4.0,<2"])]
        egDoc ⟨.major⟩ true).2 = egDoc ∧
    (check_group_overlaps_match
        [("dependencies", ["pandas>=1.3.0,<2"]), ("ml", ["pandas>=1.4.0,<2"])]
        egDoc ⟨.major⟩ true).1.status = .failed := by
  have h := drift_rule_never_mutates
    [("dependencies", ["pandas>=1.3.0,<2"]), ("ml", ["pandas>=1.4.0,<2"])]
    egDoc ⟨.major⟩ true
  refine ⟨by decide, h.1, h.2.1 (by decide)⟩

theorem exceptBind_ok (a : α) (f : α → Except ε β) :
    (do let y ← Except.ok a; f y) = f a := rfl

theorem exceptBind_error (e : ε) (f : α → Except ε β) :
    (do let y ← (Except.error e : Except ε α); f y) = Except.error e := rfl

/-- C9: every rule's result has status `PASSED` exactly when its issues
mapping is empty, a non-empty issues mapping comes with status `FAILED`
or `FIXED`, and `FIXED` occurs only when `fix` was requested (for the
two rules whose fix path can raise, stated for every returned result). -/
theorem rules_result_invariant (groups : DependencyGroups) (doc : Toml)
    (config : Config) (fix : Bool) :
    resultInv fix (check_upper_bounds groups doc config fix).1 ∧
    (∀ r d, check_all_groups_are_sorted groups doc config fix = .ok (r, d) →
      resultInv fix r) ∧
    resultInv fix (check_group_overlaps_match groups doc config fix).1 ∧
    (∀ r d, check_no_overlap_between_core_deps_and_groups groups doc config fix = .ok (r, d) →
      resultInv fix r) := by
  refine ⟨?_, ?_, ?_, ?_⟩
  · unfold check_upper_bounds
    by_cases h : collectUnpinned groups = []
    · simp [h, resultInv]
    · by_cases hf : fix <;> simp [h, hf, resultInv]
  · intro r d
    unfold check_all_groups_are_sorted
    generalize (groups.foldl
        (fun d gp => if gp.2 ≠ pySortedStr gp.2 then dictSet d gp.1 gp.2 else d)
        [] : List (String × List String)) = u
    by_cases h0 : u = []
    · subst h0
      intro h
      simp at h
      rcases h with ⟨rfl, rfl⟩
      simp [resultInv]
    · by_cases hf : fix
      · subst hf
        simp only [h0, if_neg, if_pos, not_false_iff]
        generalize (u.foldlM
            (fun d gp => update_dependencies_in_group d gp.1 (fun deps => .ok (pySortedStr deps)))
            doc : Except PyErr Toml) = w
        cases w with
        | error e => rw [exceptBind_error]; intro h; cases h
        | ok doc' =>
          rw [exceptBind_ok]
          intro h
          simp at h
          rcases h with ⟨rfl, rfl⟩
          simp [resultInv, h0]
      · simp only [h0, if_neg, hf, not_false_iff, Bool.false_eq_true, if_false]
        intro h
        simp at h
        rcases h with ⟨rfl, rfl⟩
        simp [resultInv, h0]
  · unfold check_group_overlaps_match
    by_cases h : (pairsOf groups).foldl
        (fun d gab =>
          gab.1.2.foldl (fun d pin_a =>
            gab.2.2.foldl (fun d pin_b =>
              match split_pin pin_a, split_pin pin_b with
              | some (dep_a, _), some (dep_b, _) =>
                if dep_a = dep_b ∧ pin_a ≠ pin_b then
                  dictAppend (dictAppend d gab.1.1 pin_a) gab.2.1 pin_b
                else d
              | _, _ => d) d) d)
        [] = [] <;> simp [h, resultInv]
  · intro r d
    unfold check_no_overlap_between_core_deps_and_groups
    cases hc : groupsPrimary groups with
    | error e => rw [exceptBind_error]; intro h; cases h
    | ok core =>
      rw [exceptBind_ok]
      generalize (collectRedundant core groups : List (String × List String)) = u
      by_cases h0 : u = []
      · subst h0
        intro h
        simp at h
        rcases h with ⟨rfl, rfl⟩
        simp [resultInv]
      · by_cases hf : fix
        · subst hf
          simp only [h0, if_neg, if_pos, not_false_iff]
          generalize (u.foldlM
              (fun d gp => update_dependencies_in_group d gp.1
                (fun deps => .ok (deps.filter (fun dep => !gp.2.contains dep))))
              doc : Except PyErr Toml) = w
          cases w with
          | error e => rw [exceptBind_error]; intro h; cases h
          | ok doc' =>
            rw [exceptBind_ok]
            intro h
            simp at h
            rcases h with ⟨rfl, rfl⟩
            simp [resultInv, h0]
        · simp only [h0, if_neg, hf, not_false_iff, Bool.false_eq_true, if_false]
          intro h
          simp at h
          rcases h with ⟨rfl, rfl⟩
          simp [resultInv, h0]

/-- C9 witness: instantiated on a concrete failing input with `fix`
off, for each of the four rules. -/
theorem rules_result_invariant_witness :
    resultInv false (check_upper_bounds egGroups egDoc ⟨.major⟩ false).1 ∧
    resultInv false ⟨.passed, []⟩ ∧
    resultInv false (check_group_overlaps_match egGroups egDoc ⟨.major⟩ false).1 ∧
    resultInv false ⟨.passed, []⟩ := by
  have h := rules_result_invariant egGroups egDoc ⟨.major⟩ false
  exact ⟨h.1, h.2.1 ⟨.passed, []⟩ egDoc rfl, h.2.2.1,
    h.2.2.2 ⟨.passed, []⟩ egDoc rfl⟩

theorem mem_listOf_dictAppend (d : List (String × List String)) (k : String) (v : String)
    (g q : String) :
    q ∈ listOf (dictAppend d k v) g ↔ (g = k ∧ q = v) ∨ q ∈ listOf d g := by
  induction d with
  | nil =>
    by_cases h : k = g
    · subst h
      simp [dictAppend, listOf, lookupG]
    · simp only [dictAppend, listOf, lookupG, if_neg h, Option.getD_none,
        List.not_mem_nil, or_false, false_iff, not_and]
      intro hh
      exact absurd hh.symm h
  | cons kv rest ih =>
    obtain ⟨k', vs⟩ := kv
    by_cases hk : k' = k
    · subst hk
      by_cases hg : k' = g
      · subst hg
        simp [dictAppend, listOf, lookupG]
        exact or_comm
      · simp only [dictAppend, if_pos rfl, listOf, lookupG, if_neg hg]
        constructor
        · exact Or.inr
        · rintro (⟨hh, -⟩ | hd)
          · exact absurd hh.symm hg
          · exact hd
    · by_cases hg : k' = g
      · subst hg
        simp only [dictAppend, if_neg hk, listOf, lookupG, if_pos rfl, Option.getD_some]
        constructor
        · exact Or.inr
        · rintro (⟨hh, -⟩ | hd)
          · exact absurd hh hk
          · exact hd
      · simp only [dictAppend, if_neg hk, listOf, lookupG, if_neg hg]
        exact ih

theorem mem_listOf_foldPins (k : String) (pins : List String)
    (d : List (String × List String)) (g q : String) :
    q ∈ listOf (pins.foldl
        (fun d pin => if flaggedUnpinned pin then dictAppend d k pin else d) d) g ↔
      (g = k ∧ q ∈ pins ∧ flaggedUnpinned q = true) ∨ q ∈ listOf d g := by
  induction pins generalizing d with
  | nil => simp
  | cons p ps ih =>
    simp only [List.foldl_cons]
    by_cases hp : flaggedUnpinned p
    · rw [if_pos hp, ih, mem_listOf_dictAppend]
      constructor
      · rintro (⟨rfl, hq, hf⟩ | ⟨rfl, rfl⟩ | hd)
        · exact Or.inl ⟨rfl, List.mem_cons_of_mem _ hq, hf⟩
        · exact Or.inl ⟨rfl, List.mem_cons_self _ _, hp⟩
        · exact Or.inr hd
      · rintro (⟨rfl, hq, hf⟩ | hd)
        · rcases List.mem_cons.1 hq with rfl | hq
          · exact Or.inr (Or.inl ⟨rfl, rfl⟩)
          · exact Or.inl ⟨rfl, hq, hf⟩
        · exact Or.inr (Or.inr hd)
    · rw [if_neg hp, ih]
      constructor
      · rintro (⟨rfl, hq, hf⟩ | hd)
        · exact Or.inl ⟨rfl, List.mem_cons_of_mem _ hq, hf⟩
        · exact Or.inr hd
      · rintro (⟨rfl, hq, hf⟩ | hd)
        · rcases List.mem_cons.1 hq with rfl | hq
          · exact absurd hf hp
          · exact Or.inl ⟨rfl, hq, hf⟩
        · exact Or.inr hd

theorem mem_collectUnpinned_fold (groups : DependencyGroups)
    (d : List (String × List String)) (g q : String) :
    q ∈ listOf (groups.foldl
        (fun d gp => gp.2.foldl
          (fun d pin => if flaggedUnpinned pin then dictAppend d gp.1 pin else d) d) d) g ↔
      (∃ ps, (g, ps) ∈ groups ∧ q ∈ ps ∧ flaggedUnpinned q = true) ∨ q ∈ listOf d g := by
  induction groups generalizing d with
  | nil => simp
  | cons gp gps ih =>
    obtain ⟨k, ps⟩ := gp
    simp only [List.foldl_cons]
    rw [ih, mem_listOf_foldPins]
    constructor
    · rintro (⟨ps', hmem, hq, hf⟩ | ⟨rfl, hq, hf⟩ | hd)
      · exact Or.inl ⟨ps', List.mem_cons_of_mem _ hmem, hq, hf⟩
      · exact Or.inl ⟨ps, List.mem_cons_self _ _, hq, hf⟩
      · exact Or.inr hd
    · rintro (⟨ps', hmem, hq, hf⟩ | hd)
      · rcases List.mem_cons.1 hmem with heq | hmem
        · injection heq with h1 h2
          exact Or.inr (Or.inl ⟨h1, h2 ▸ hq, hf⟩)
        · exact Or.inl ⟨ps', hmem, hq, hf⟩
      · exact Or.inr (Or.inr hd)

theorem mem_collectUnpinned (groups : DependencyGroups) (g q : String) :
    q ∈ listOf (collectUnpinned groups) g ↔
      (∃ ps, (g, ps) ∈ groups ∧ q ∈ ps) ∧ flaggedUnpinned q = true := by
  unfold collectUnpinned
  rw [mem_collectUnpinned_fold]
  simp only [listOf, lookupG, Option.getD_none, List.not_mem_nil, or_false]
  constructor
  · rintro ⟨ps, hmem, hq, hf⟩
    exact ⟨⟨ps, hmem, hq⟩, hf⟩
  · rintro ⟨⟨ps, hmem, hq⟩, hf⟩
    exact ⟨ps, hmem, hq, hf⟩

theorem upper_issues_eq (groups : DependencyGroups) (doc : Toml) (config : Config)
    (fix : Bool) :
    (check_upper_bounds groups doc config fix).1.issues = collectUnpinned groups := by
  unfold check_upper_bounds
  by_cases h : collectUnpinned groups = []
  · simp [h]
  · by_cases hf : fix <;> simp [h, hf]

/-- C1 counterexample: the pin `pkg>2.0.0` has no `>=` clause (its only
clause uses `>`), so under the claim it must not be flagged; yet
`check_upper_bounds` reports it as an issue, because the code tests for
the raw characters `>`/`<`, not for parsed operators. -/
theorem upper_bound_flag_counterexample :
    (check_upper_bounds [("dependencies", ["pkg>2.0.0"])] (Toml.table [])
        ⟨.major⟩ false).1.issues = [("dependencies", ["pkg>2.0.0"])] ∧
    specFlagLowerNoUpper "pkg>2.0.0" = false := by
  exact ⟨by decide, by decide⟩

/-- C1 (amended): for every group and pin, `check_upper_bounds` flags
the pin as an issue if and only if the pin's raw string contains the
character `>` and does not contain the character `<` (a substring
test, not a test of parsed constraint operators). -/
theorem upper_bound_rule_flags_iff (groups : DependencyGroups) (doc : Toml)
    (config : Config) (fix : Bool) (g q : String) :
    q ∈ listOf (check_upper_bounds groups doc config fix).1.issues g ↔
      (∃ ps, (g, ps) ∈ groups ∧ q ∈ ps) ∧
        q.data.contains '>' = true ∧ q.data.contains '<' = false := by
  rw [upper_issues_eq, mem_collectUnpinned]
  unfold flaggedUnpinned
  simp [Bool.and_eq_true, Bool.not_eq_true', and_assoc]

/-- C3: with `--fix` and issues found, the claimed behaviour is exit
code 1 whenever some flagged pin could not be fixed.  The code instead
exits 0: on a document whose only pin `pkg>2.0.0` is flagged but cannot
be fixed (no `>=` lower bound, so synthesis raises and the document is
left byte-identical), `check_upper_bounds` still reports `FIXED`, every
rule's status is `PASSED`/`FIXED`, and `main` returns 0. -/
theorem fix_exit_zero_despite_unfixed_pin :
    main_exit egGroups egDoc ⟨.major⟩ true = .ok (0, egDoc) ∧
    (check_upper_bounds egGroups egDoc ⟨.major⟩ true).1.issues
        = [("dependencies", ["pkg>2.0.0"])] ∧
    (check_upper_bounds egGroups egDoc ⟨.major⟩ true).1.status = .fixed ∧
    _add_upper_bound "pkg>2.0.0" ⟨.major⟩ =
      .error (.valueError "Cannot add upper bound: no >= specifier found in pkg>2.0.0") := by
  exact ⟨rfl, by decide, by decide, rfl⟩

theorem find?_of_filter_singleton {α : Type} (p : α → Bool) (l : List α) (x : α)
    (h : l.filter p = [x]) : l.find? p = some x := by
  induction l with
  | nil => simp at h
  | cons a rest ih =>
    by_cases hp : p a
    · rw [List.filter_cons_of_pos hp] at h
      injection h with h1 h2
      rw [List.find?_cons_of_pos _ hp, h1]
    · rw [List.filter_cons_of_neg hp] at h
      rw [List.find?_cons_of_neg _ hp]
      exact ih h

/-- C2: for every pin whose constraint set has exactly one `>=` clause
(at release triple `(a, b, c)`, pre-release suffix ignored) and no `<`
or `<=` clause, `_add_upper_bound` returns
`name[extras]>=<lower>,<<synthesized>` — extras re-emitted sorted and
deduplicated, omitted when absent — where the synthesized bound is
`(a+1).0.0` under MAJOR, `a.(b+1).0` under MINOR, and `a.b.(c+1)` under
PATCH. -/
theorem add_upper_bound_form (pin : String) (config : Config) (r : Requirement)
    (sp : Specifier) (a b c : Nat)
    (hp : parseRequirement pin = some r)
    (hge : r.specs.filter (fun s => s.op == .ge) = [sp])
    (hub : r.specs.any hasUpperSpec = false)
    (hv : parseVersion sp.version = some (a, b, c)) :
    _add_upper_bound pin config =
      .ok (r.name ++ extrasStr r.extras ++ ">=" ++ sp.version ++ ","
        ++ "<" ++ synthUpper config.pinning_strategy a b c) := by
  unfold _add_upper_bound
  rw [hp]
  simp only [hub, Bool.false_eq_true, if_false]
  rw [find?_of_filter_singleton _ _ _ hge]
  simp only [hv]

/-- C2 witness: `package[extra]>=1.2.3` under MAJOR becomes
`package[extra]>=1.2.3,<2.0.0`. -/
theorem add_upper_bound_form_witness :
    parseRequirement "package[extra]>=1.2.3"
        = some ⟨"package", ["extra"], [⟨.ge, "1.2.3"⟩]⟩ ∧
    parseVersion "1.2.3" = some (1, 2, 3) ∧
    _add_upper_bound "package[extra]>=1.2.3" ⟨.major⟩
        = .ok "package[extra]>=1.2.3,<2.0.0" := by
  refine ⟨by decide, by decide, ?_⟩
  exact add_upper_bound_form "package[extra]>=1.2.3" ⟨.major⟩
    ⟨"package", ["extra"], [⟨.ge, "1.2.3"⟩]⟩ ⟨.ge, "1.2.3"⟩ 1 2 3
    (by decide) (by decide) (by decide) (by decide)

theorem exceptMapList_error (f : α → Except PyErr β) (l : List α)
    (h : ∃ x ∈ l, ∃ e, f x = .error e) : ∃ e, exceptMapList f l = .error e := by
  induction l with
  | nil => simp at h
  | cons a rest ih =>
    cases hfa : f a with
    | error e => exact ⟨e, by unfold exceptMapList; rw [hfa]; rfl⟩
    | ok y =>
      obtain ⟨x, hx, e, hfx⟩ := h
      rcases List.mem_cons.1 hx with rfl | hx
      · rw [hfa] at hfx; cases hfx
      · obtain ⟨e', he'⟩ := ih ⟨x, hx, e, hfx⟩
        refine ⟨e', ?_⟩
        unfold exceptMapList
        rw [hfa, exceptBind_ok, he']
        rfl

/-- C4 counterexample: `dependencies` holds the flagged pins
`aaa>=1.0.0` (fixable) and `bbb>2.0.0` (synthesis fails).  The claim
says only `bbb>2.0.0` is left unchanged and `aaa>=1.0.0` is still
rewritten; in fact the whole group's rewrite is abandoned and the
document comes back byte-identical, `aaa>=1.0.0` included. -/
theorem upper_fix_abort_counterexample :
    (check_upper_bounds c4Groups c4Doc ⟨.major⟩ true).2 = c4Doc ∧
    (check_upper_bounds c4Groups c4Doc ⟨.major⟩ true).1.issues
        = [("dependencies", ["aaa>=1.0.0", "bbb>2.0.0"])] ∧
    _add_upper_bound "aaa>=1.0.0" ⟨.major⟩ = .ok "aaa>=1.0.0,<2.0.0" ∧
    _add_upper_bound "bbb>2.0.0" ⟨.major⟩ =
      .error (.valueError "Cannot add upper bound: no >= specifier found in bbb>2.0.0") := by
  exact ⟨rfl, by decide, rfl, rfl⟩

/-- C4 (amended): when a flagged pin of a group fails to synthesize,
the *entire group's* rewrite is abandoned — the document keeps every
pin of that group unchanged, the fixable ones included; the rule still
continues without aborting (other groups are rewritten and the result
is reported `FIXED`). -/
theorem upper_fix_aborts_whole_group :
    (∀ (doc : Toml) (g : String) (ps : List String) (config : Config)
        (arrT : Toml) (deps : List String),
      get_dependency_array doc g = .ok arrT →
      tomlList arrT = .ok deps →
      (∃ d ∈ deps, ps.contains d = true ∧ ∃ e, _add_upper_bound d config = .error e) →
      fixGroupUpper doc g ps config = doc) ∧
    (∀ (groups : DependencyGroups) (doc : Toml) (config : Config),
      collectUnpinned groups ≠ [] →
      (check_upper_bounds groups doc config true).1.status = .fixed) ∧
    (check_upper_bounds c4bGroups c4bDoc ⟨.major⟩ true).2 = c4bDocFixed := by
  refine ⟨?_, ?_, rfl⟩
  · intro doc g ps config arrT deps hget hlist hfail
    unfold fixGroupUpper update_dependencies_in_group
    rw [hget, exceptBind_ok, hlist, exceptBind_ok]
    obtain ⟨e, he⟩ := exceptMapList_error
      (fun dep => if ps.contains dep then _add_upper_bound dep config else .ok dep) deps
      (by
        obtain ⟨d, hd, hmem, e, herr⟩ := hfail
        refine ⟨d, hd, e, ?_⟩
        show (if ps.contains d = true then _add_upper_bound d config else Except.ok d)
          = Except.error e
        rw [if_pos hmem]
        exact herr)
    beta_reduce
    rw [he]
    rfl
  · intro groups doc config h
    unfold check_upper_bounds
    simp [h]

/-- C4 witness: the group-abort branch of the amended theorem applied
to the concrete failing group of `c4Doc`. -/
theorem upper_fix_aborts_whole_group_witness :
    fixGroupUpper c4Doc "dependencies" ["aaa>=1.0.0", "bbb>2.0.0"] ⟨.major⟩ = c4Doc ∧
    (check_upper_bounds c4Groups c4Doc ⟨.major⟩ true).1.status = .fixed := by
  constructor
  · exact upper_fix_aborts_whole_group.1 c4Doc "dependencies"
      ["aaa>=1.0.0", "bbb>2.0.0"] ⟨.major⟩
      (.arr [.str "aaa>=1.0.0", .str "bbb>2.0.0"]) ["aaa>=1.0.0", "bbb>2.0.0"]
      rfl rfl
      ⟨"bbb>2.0.0", by decide, by decide, .valueError "Cannot add upper bound: no >= specifier found in bbb>2.0.0", rfl⟩
  · exact upper_fix_aborts_whole_group.2.1 c4Groups c4Doc ⟨.major⟩ (by decide)

/-- C7 counterexample: when `[project.optional-dependencies]` exists
but is not a table, the loader does not fail with a missing-section
(KeyError) failure as claimed: iterating `.items()` of the non-mapping
raises AttributeError instead. -/
theorem loader_nontable_optional_counterexample :
    load_uv_dependencies c7Doc = .error .attributeError ∧
    (∀ m : String, (PyErr.attributeError : PyErr) ≠ .keyError m) := by
  exact ⟨rfl, fun m h => PyErr.noConfusion h⟩

/-- C7 (amended): the loader fails with a missing-section KeyError when
`[project]`, `[project.dependencies]`, `[dependency-groups]` or its
`dev` entry is absent; it succeeds with exactly the two required groups
when `optional-dependencies` is absent; but when `optional-dependencies`
exists and is not a table it fails with an AttributeError, not a
missing-section KeyError. -/
theorem loader_sections (kvs : List (String × Toml)) :
    (lookupKV kvs "project" = none →
      load_uv_dependencies (.table kvs)
        = .error (.keyError "Missing [project] section in pyproject.toml")) ∧
    (∀ pkvs, lookupKV kvs "project" = some (.table pkvs) →
      lookupKV pkvs "dependencies" = none →
      load_uv_dependencies (.table kvs)
        = .error (.keyError "Missing [project.dependencies] in pyproject.toml")) ∧
    (∀ pkvs dv, lookupKV kvs "project" = some (.table pkvs) →
      lookupKV pkvs "dependencies" = some dv →
      lookupKV kvs "dependency-groups" = none →
      load_uv_dependencies (.table kvs)
        = .error (.keyError "Missing [dependency-groups] section in pyproject.toml")) ∧
    (∀ pkvs dv dgkvs, lookupKV kvs "project" = some (.table pkvs) →
      lookupKV pkvs "dependencies" = some dv →
      lookupKV kvs "dependency-groups" = some (.table dgkvs) →
      lookupKV dgkvs "dev" = none →
      load_uv_dependencies (.table kvs)
        = .error (.keyError "Missing [dependency-groups.dev] in pyproject.toml")) ∧
    (∀ pkvs dv dgkvs dvv depsL devL cfg,
      lookupKV kvs "project" = some (.table pkvs) →
      lookupKV pkvs "dependencies" = some dv →
      lookupKV kvs "dependency-groups" = some (.table dgkvs) →
      lookupKV dgkvs "dev" = some dvv →
      tomlList dv = .ok depsL →
      tomlList dvv = .ok devL →
      lookupKV pkvs "optional-dependencies" = none →
      load_config (.table kvs) = .ok cfg →
      load_uv_dependencies (.table kvs)
        = .ok ([("dependencies", depsL), ("dev", devL)], cfg)) ∧
    (∀ pkvs dv dgkvs dvv depsL devL v,
      lookupKV kvs "project" = some (.table pkvs) →
      lookupKV pkvs "dependencies" = some dv →
      lookupKV kvs "dependency-groups" = some (.table dgkvs) →
      lookupKV dgkvs "dev" = some dvv →
      tomlList dv = .ok depsL →
      tomlList dvv = .ok devL →
      lookupKV pkvs "optional-dependencies" = some v →
      (∀ kvs', v ≠ .table kvs') →
      load_uv_dependencies (.table kvs) = .error .attributeError) := by
  refine ⟨?_, ?_, ?_, ?_, ?_, ?_⟩
  · intro hp
    simp only [load_uv_dependencies, memItem, hp, Option.isSome_none, exceptBind_ok,
      Bool.not_false, if_true]
  · intro pkvs hp hd
    simp only [load_uv_dependencies, memItem, index, hp, hd, Option.isSome_some,
      Option.isSome_none, exceptBind_ok, Bool.not_true, Bool.not_false,
      Bool.false_eq_true, if_false, if_true]
  · intro pkvs dv hp hd hg
    simp only [load_uv_dependencies, memItem, index, hp, hd, hg, Option.isSome_some,
      Option.isSome_none, exceptBind_ok, Bool.not_true, Bool.not_false,
      Bool.false_eq_true, if_false, if_true]
  · intro pkvs dv dgkvs hp hd hg hdev
    simp only [load_uv_dependencies, memItem, index, hp, hd, hg, hdev, Option.isSome_some,
      Option.isSome_none, exceptBind_ok, Bool.not_true, Bool.not_false,
      Bool.false_eq_true, if_false, if_true]
  · intro pkvs dv dgkvs dvv depsL devL cfg hp hd hg hdev hld hlv hopt hcfg
    simp only [load_uv_dependencies, memItem, index, optionalItems, hp, hd, hg, hdev,
      hld, hlv, hopt, hcfg, Option.isSome_some, exceptBind_ok, Bool.not_true,
      Bool.false_eq_true, if_false, exceptMapList, dictMerge, List.foldl_nil]
  · intro pkvs dv dgkvs dvv depsL devL v hp hd hg hdev hld hlv hopt hv
    simp only [load_uv_dependencies, memItem, index, optionalItems, hp, hd, hg, hdev,
      hld, hlv, hopt, Option.isSome_some, exceptBind_ok, Bool.not_true,
      Bool.false_eq_true, if_false]
    rcases v with s | n | b | l | kvs' <;> first
      | exact absurd rfl (hv _)
      | rfl

/-- C7 witness: the missing-`[project]` branch and the
optional-dependencies-absent success branch of `loader_sections`, at
concrete documents. -/
theorem loader_sections_witness :
    load_uv_dependencies (.table [])
      = .error (.keyError "Missing [project] section in pyproject.toml") ∧
    load_uv_dependencies c7GoodDoc
      = .ok ([("dependencies", ["aaa>=1.0.0"]), ("dev", ["bbb>=1.0.0"])], ⟨.major⟩) := by
  constructor
  · exact (loader_sections []).1 rfl
  · exact (loader_sections
      [("project", .table [("dependencies", .arr [.str "aaa>=1.0.0"])]),
       ("dependency-groups", .table [("dev", .arr [.str "bbb>=1.0.0"])])]).2.2.2.2.1
      [("dependencies", .arr [.str "aaa>=1.0.0"])]
      (.arr [.str "aaa>=1.0.0"])
      [("dev", .arr [.str "bbb>=1.0.0"])]
      (.arr [.str "bbb>=1.0.0"])
      ["aaa>=1.0.0"] ["bbb>=1.0.0"] ⟨.major⟩
      rfl rfl rfl rfl rfl rfl rfl rfl

theorem lookupKV_updateKV_self (kvs : List (String × Toml)) (k : String) (v : Toml) :
    lookupKV (updateKV kvs k v) k = some v := by
  induction kvs with
  | nil => simp [updateKV, lookupKV]
  | cons kv rest ih =>
    obtain ⟨k', v'⟩ := kv
    by_cases h : k' = k
    · simp [updateKV, lookupKV, h]
    · simp only [updateKV, if_neg h, lookupKV, ih, if_neg h]

theorem lookupKV_updateKV_ne (kvs : List (String × Toml)) (k k' : String) (v : Toml)
    (h : k' ≠ k) : lookupKV (updateKV kvs k v) k' = lookupKV kvs k' := by
  induction kvs with
  | nil =>
    simp only [updateKV, lookupKV]
    rw [if_neg (fun hh => h hh.symm)]
  | cons kv rest ih =>
    obtain ⟨a, b⟩ := kv
    by_cases ha : a = k
    · subst ha
      simp only [updateKV, if_pos rfl, lookupKV]
      rw [if_neg (fun hh => h hh.symm), if_neg (fun hh => h hh.symm)]
    · simp only [updateKV, if_neg ha, lookupKV, ih]

theorem setToml_get_same (p : List String) : ∀ (t t' v : Toml),
    setToml t p v = .ok t' → getToml t' p = .ok v := by
  induction p with
  | nil =>
    intro t t' v h
    unfold setToml at h
    injection h with h
    subst h
    rfl
  | cons k rest ih =>
    intro t t' v h
    cases rest with
    | nil =>
      cases t with
      | table kvs =>
        unfold setToml at h
        injection h with h
        subst h
        unfold getToml
        simp only [index, lookupKV_updateKV_self, exceptBind_ok]
        rfl
      | str s => cases h
      | int n => cases h
      | bool b => cases h
      | arr l => cases h
    | cons k2 rest2 =>
      cases t with
      | table kvs =>
        unfold setToml at h
        simp only [index] at h
        cases hlk : lookupKV kvs k with
        | none => rw [hlk] at h; cases h
        | some child =>
          rw [hlk, exceptBind_ok] at h
          cases hset : setToml child (k2 :: rest2) v with
          | error e => rw [hset] at h; cases h
          | ok child' =>
            rw [hset, exceptBind_ok] at h
            injection h with h
            subst h
            unfold getToml
            simp only [index, lookupKV_updateKV_self, exceptBind_ok]
            exact ih child child' v hset
      | str s => cases h
      | int n => cases h
      | bool b => cases h
      | arr l => cases h

theorem setToml_get_frame (p : List String) : ∀ (q : List String) (t t' v : Toml),
    PathsDiffer p q → setToml t p v = .ok t' → getToml t' q = getToml t q := by
  induction p with
  | nil => intro q t t' v hd; cases q <;> cases hd
  | cons k rest ih =>
    intro q t t' v hd h
    cases q with
    | nil => cases hd
    | cons b qrest =>
      rcases hd with hne | ⟨rfl, hd'⟩
      · -- heads differ: the write touches key k only
        cases t with
        | table kvs =>
          cases rest with
          | nil =>
            unfold setToml at h
            injection h with h
            subst h
            unfold getToml
            simp only [index, lookupKV_updateKV_ne kvs k b _ (fun hh => hne hh.symm)]
          | cons k2 rest2 =>
            unfold setToml at h
            simp only [index] at h
            cases hlk : lookupKV kvs k with
            | none => rw [hlk] at h; cases h
            | some child =>
              rw [hlk, exceptBind_ok] at h
              cases hset : setToml child (k2 :: rest2) v with
              | error e => rw [hset] at h; cases h
              | ok child' =>
                rw [hset, exceptBind_ok] at h
                injection h with h
                subst h
                unfold getToml
                simp only [index, lookupKV_updateKV_ne kvs k b _ (fun hh => hne hh.symm)]
        | str s => cases rest <;> cases h
        | int n => cases rest <;> cases h
        | bool b' => cases rest <;> cases h
        | arr l => cases rest <;> cases h
      · -- heads equal: recurse below key k
        cases t with
        | table kvs =>
          cases rest with
          | nil => cases qrest <;> cases hd'
          | cons k2 rest2 =>
            unfold setToml at h
            simp only [index] at h
            cases hlk : lookupKV kvs k with
            | none => rw [hlk] at h; cases h
            | some child =>
              rw [hlk, exceptBind_ok] at h
              cases hset : setToml child (k2 :: rest2) v with
              | error e => rw [hset] at h; cases h
              | ok child' =>
                rw [hset, exceptBind_ok] at h
                injection h with h
                subst h
                unfold getToml
                simp only [index, lookupKV_updateKV_self, hlk, exceptBind_ok]
                exact ih qrest child child' v hd' hset
        | str s => cases rest <;> cases h
        | int n => cases rest <;> cases h
        | bool b' => cases rest <;> cases h
        | arr l => cases rest <;> cases h

theorem groupPath_differ (g k : String) (h : g ≠ k) :
    PathsDiffer (groupPath g) (groupPath k) := by
  unfold groupPath
  by_cases hg1 : g = "dependencies"
  · by_cases hk1 : k = "dependencies"
    · exact absurd (hg1.trans hk1.symm) h
    · rw [if_pos hg1, if_neg hk1]
      by_cases hk2 : k = "dev"
      · rw [if_pos hk2]
        exact Or.inl (by decide)
      · rw [if_neg hk2]
        exact Or.inr ⟨rfl, Or.inl (by decide)⟩
  · rw [if_neg hg1]
    by_cases hg2 : g = "dev"
    · rw [if_pos hg2]
      by_cases hk1 : k = "dependencies"
      · rw [if_pos hk1]
        exact Or.inl (by decide)
      · rw [if_neg hk1]
        by_cases hk2 : k = "dev"
        · exact absurd (hg2.trans hk2.symm) h
        · rw [if_neg hk2]
          exact Or.inl (by decide)
    · rw [if_neg hg2]
      by_cases hk1 : k = "dependencies"
      · rw [if_pos hk1]
        exact Or.inr ⟨rfl, Or.inl (by decide)⟩
      · rw [if_neg hk1]
        by_cases hk2 : k = "dev"
        · rw [if_pos hk2]
          exact Or.inl (by decide)
        · rw [if_neg hk2]
          exact Or.inr ⟨rfl, Or.inr ⟨rfl, Or.inl h⟩⟩

theorem tomlList_arr_str (l : List String) :
    tomlList (.arr (l.map .str)) = .ok l := by
  simp only [tomlList, List.map_map]
  congr 1
  exact List.map_congr_left (fun x _ => rfl) |>.trans (List.map_id l)

/-- What one successful `update_dependencies_in_group` call does: it
read the group's current entries, transformed them, wrote the result
back at the group's path, and touched no other group's path. -/
theorem update_group_spec (doc : Toml) (g : String)
    (fn : List String → Except PyErr (List String)) (doc' : Toml)
    (h : update_dependencies_in_group doc g fn = .ok doc') :
    ∃ cur newd, getDeps doc g = .ok cur ∧ fn cur = .ok newd ∧
      getDeps doc' g = .ok newd ∧
      (∀ k, k ≠ g → getDeps doc' k = getDeps doc k) := by
  unfold update_dependencies_in_group at h
  cases harr : get_dependency_array doc g with
  | error e => rw [harr] at h; cases h
  | ok arrT =>
    rw [harr, exceptBind_ok] at h
    cases hlist : tomlList arrT with
    | error e => rw [hlist] at h; cases h
    | ok cur =>
      rw [hlist, exceptBind_ok] at h
      cases hfn : fn cur with
      | error e => rw [hfn] at h; cases h
      | ok newd =>
        rw [hfn, exceptBind_ok] at h
        refine ⟨cur, newd, ?_, hfn, ?_, ?_⟩
        · unfold getDeps
          rw [harr, exceptBind_ok, hlist]
        · unfold getDeps get_dependency_array
          rw [setToml_get_same (groupPath g) doc doc' _ h, exceptBind_ok]
          exact tomlList_arr_str newd
        · intro k hk
          unfold getDeps get_dependency_array
          rw [setToml_get_frame (groupPath g) (groupPath k) doc doc' _
            (groupPath_differ g k (fun hh => hk hh.symm)) h]

/-- What the overlap rule's fix loop does to the document, entry by
entry: each listed group ends up as its previous content filtered by
the entry's pin strings, and unlisted groups are untouched. -/
theorem overlap_fold_spec (ents : List (String × List String)) :
    ∀ (doc doc' : Toml),
    (ents.map Prod.fst).Nodup →
    ents.foldlM (fun d gp => update_dependencies_in_group d gp.1
      (fun deps => .ok (deps.filter (fun dep => !gp.2.contains dep)))) doc = .ok doc' →
    (∀ g ps, (g, ps) ∈ ents → ∃ cur, getDeps doc g = .ok cur ∧
        getDeps doc' g = .ok (cur.filter (fun dep => !ps.contains dep))) ∧
    (∀ k, (∀ ps, (k, ps) ∉ ents) → getDeps doc' k = getDeps doc k) := by
  induction ents with
  | nil =>
    intro doc doc' _ h
    simp only [List.foldlM_nil] at h
    injection h with h
    subst h
    exact ⟨fun g ps hmem => absurd hmem (List.not_mem_nil _), fun k _ => rfl⟩
  | cons ent rest ih =>
    obtain ⟨g0, ps0⟩ := ent
    intro doc doc' hnd h
    rw [List.foldlM_cons] at h
    cases hup : update_dependencies_in_group doc g0
        (fun deps => .ok (deps.filter (fun dep => !ps0.contains dep))) with
    | error e => rw [hup] at h; cases h
    | ok doc1 =>
      rw [hup, exceptBind_ok] at h
      have hnd' : (rest.map Prod.fst).Nodup := (List.nodup_cons.1 hnd).2
      have hg0 : g0 ∉ rest.map Prod.fst := (List.nodup_cons.1 hnd).1
      obtain ⟨hrest1, hrest2⟩ := ih doc1 doc' hnd' h
      obtain ⟨cur0, newd0, hcur0, hfn0, hnew0, hframe0⟩ :=
        update_group_spec doc g0 _ doc1 hup
      constructor
      · intro g ps hmem
        rcases List.mem_cons.1 hmem with heq | hmem'
        · injection heq with h1 h2
          subst h1
          subst h2
          refine ⟨cur0, hcur0, ?_⟩
          rw [hrest2 g (fun ps' hin => hg0 (List.mem_map.2 ⟨(g, ps'), hin, rfl⟩)), hnew0]
          injection hfn0 with hfn0
          rw [← hfn0]
        · have hgne : g ≠ g0 := by
            intro hh
            subst hh
            exact hg0 (List.mem_map.2 ⟨(g, ps), hmem', rfl⟩)
          obtain ⟨cur, hcur, hres⟩ := hrest1 g ps hmem'
          rw [hframe0 g hgne] at hcur
          exact ⟨cur, hcur, hres⟩
      · intro k hk
        have hkne : k ≠ g0 := by
          intro hh
          subst hh
          exact hk ps0 (List.mem_cons_self _ _)
        rw [hrest2 k (fun ps hin => hk ps (List.mem_cons_of_mem _ hin)),
          hframe0 k hkne]

theorem mem_listOf_foldIf (p : String → Bool) (k : String) (pins : List String)
    (d : List (String × List String)) (g q : String) :
    q ∈ listOf (pins.foldl
        (fun d pin => if p pin then dictAppend d k pin else d) d) g ↔
      (g = k ∧ q ∈ pins ∧ p q = true) ∨ q ∈ listOf d g := by
  induction pins generalizing d with
  | nil => simp
  | cons pp ps ih =>
    simp only [List.foldl_cons]
    by_cases hp : p pp
    · rw [if_pos hp, ih, mem_listOf_dictAppend]
      constructor
      · rintro (⟨rfl, hq, hf⟩ | ⟨rfl, rfl⟩ | hd)
        · exact Or.inl ⟨rfl, List.mem_cons_of_mem _ hq, hf⟩
        · exact Or.inl ⟨rfl, List.mem_cons_self _ _, hp⟩
        · exact Or.inr hd
      · rintro (⟨rfl, hq, hf⟩ | hd)
        · rcases List.mem_cons.1 hq with rfl | hq
          · exact Or.inr (Or.inl ⟨rfl, rfl⟩)
          · exact Or.inl ⟨rfl, hq, hf⟩
        · exact Or.inr (Or.inr hd)
    · rw [if_neg hp, ih]
      constructor
      · rintro (⟨rfl, hq, hf⟩ | hd)
        · exact Or.inl ⟨rfl, List.mem_cons_of_mem _ hq, hf⟩
        · exact Or.inr hd
      · rintro (⟨rfl, hq, hf⟩ | hd)
        · rcases List.mem_cons.1 hq with rfl | hq
          · exact absurd hf hp
          · exact Or.inl ⟨rfl, hq, hf⟩
        · exact Or.inr hd

theorem mem_overlap_groups_fold (core_dep : String) (groups : DependencyGroups)
    (d : List (String × List String)) (g q : String) :
    q ∈ listOf (groups.foldl
        (fun d gp =>
          if gp.1 = "dependencies" then d
          else gp.2.foldl
            (fun d pin => if pinNameMatches core_dep pin then dictAppend d gp.1 pin else d)
            d) d) g ↔
      (g ≠ "dependencies" ∧ ∃ gl, (g, gl) ∈ groups ∧ q ∈ gl ∧
        pinNameMatches core_dep q = true) ∨ q ∈ listOf d g := by
  induction groups generalizing d with
  | nil => simp
  | cons gp gps ih =>
    obtain ⟨k, ps⟩ := gp
    simp only [List.foldl_cons]
    by_cases hk : k = "dependencies"
    · rw [if_pos hk, ih]
      constructor
      · rintro (⟨hne, gl, hmem, hq, hf⟩ | hd)
        · exact Or.inl ⟨hne, gl, List.mem_cons_of_mem _ hmem, hq, hf⟩
        · exact Or.inr hd
      · rintro (⟨hne, gl, hmem, hq, hf⟩ | hd)
        · rcases List.mem_cons.1 hmem with heq | hmem
          · injection heq with h1 h2
            exact absurd (h1.trans hk) hne
          · exact Or.inl ⟨hne, gl, hmem, hq, hf⟩
        · exact Or.inr hd
    · rw [if_neg hk, ih, mem_listOf_foldIf]
      constructor
      · rintro (⟨hne, gl, hmem, hq, hf⟩ | ⟨rfl, hq, hf⟩ | hd)
        · exact Or.inl ⟨hne, gl, List.mem_cons_of_mem _ hmem, hq, hf⟩
        · exact Or.inl ⟨hk, ps, List.mem_cons_self _ _, hq, hf⟩
        · exact Or.inr hd
      · rintro (⟨hne, gl, hmem, hq, hf⟩ | hd)
        · rcases List.mem_cons.1 hmem with heq | hmem
          · injection heq with h1 h2
            subst h1
            subst h2
            exact Or.inr (Or.inl ⟨rfl, hq, hf⟩)
          · exact Or.inl ⟨hne, gl, hmem, hq, hf⟩
        · exact Or.inr (Or.inr hd)

theorem mem_collectRedundant (core : List String) (groups : DependencyGroups)
    (g q : String) :
    q ∈ listOf (collectRedundant core groups) g ↔
      g ≠ "dependencies" ∧
      ∃ c nc sc, c ∈ core ∧ split_pin c = some (nc, sc) ∧
        (∃ gl, (g, gl) ∈ groups ∧ q ∈ gl) ∧ pinNameMatches nc q = true := by
  unfold collectRedundant
  have main : ∀ (d : List (String × List String)),
      q ∈ listOf (core.foldl
        (fun d core_pin =>
          match split_pin core_pin with
          | none => d
          | some (core_dep, _) =>
            groups.foldl
              (fun d gp =>
                if gp.1 = "dependencies" then d
                else gp.2.foldl
                  (fun d pin => if pinNameMatches core_dep pin then dictAppend d gp.1 pin else d)
                  d)
              d) d) g ↔
      (g ≠ "dependencies" ∧
        ∃ c nc sc, c ∈ core ∧ split_pin c = some (nc, sc) ∧
          (∃ gl, (g, gl) ∈ groups ∧ q ∈ gl) ∧ pinNameMatches nc q = true) ∨
      q ∈ listOf d g := by
    induction core with
    | nil => simp
    | cons c0 cs ih =>
      intro d
      simp only [List.foldl_cons]
      cases hc0 : split_pin c0 with
      | none =>
        rw [ih]
        constructor
        · rintro (⟨hne, c, nc, sc, hcmem, hcs, hgl, hf⟩ | hd)
          · exact Or.inl ⟨hne, c, nc, sc, List.mem_cons_of_mem _ hcmem, hcs, hgl, hf⟩
          · exact Or.inr hd
        · rintro (⟨hne, c, nc, sc, hcmem, hcs, hgl, hf⟩ | hd)
          · rcases List.mem_cons.1 hcmem with rfl | hcmem
            · rw [hc0] at hcs; cases hcs
            · exact Or.inl ⟨hne, c, nc, sc, hcmem, hcs, hgl, hf⟩
          · exact Or.inr hd
      | some ncsc =>
        obtain ⟨nc0, sc0⟩ := ncsc
        rw [ih, mem_overlap_groups_fold]
        constructor
        · rintro (⟨hne, c, nc, sc, hcmem, hcs, hgl, hf⟩ | ⟨hne, gl, hmem, hq, hf⟩ | hd)
          · exact Or.inl ⟨hne, c, nc, sc, List.mem_cons_of_mem _ hcmem, hcs, hgl, hf⟩
          · exact Or.inl ⟨hne, c0, nc0, sc0, List.mem_cons_self _ _, hc0, ⟨gl, hmem, hq⟩, hf⟩
          · exact Or.inr hd
        · rintro (⟨hne, c, nc, sc, hcmem, hcs, hgl, hf⟩ | hd)
          · rcases List.mem_cons.1 hcmem with rfl | hcmem
            · rw [hc0] at hcs
              injection hcs with hcs
              injection hcs with hn hs
              subst hn
              obtain ⟨gl, hmem, hq⟩ := hgl
              exact Or.inr (Or.inl ⟨hne, gl, hmem, hq, hf⟩)
            · exact Or.inl ⟨hne, c, nc, sc, hcmem, hcs, hgl, hf⟩
          · exact Or.inr (Or.inr hd)
  rw [main []]
  simp [listOf, lookupG]

theorem keys_dictAppend (d : List (String × List String)) (k : String) (v : String) :
    (dictAppend d k v).map Prod.fst = d.map Prod.fst ∨
    ((dictAppend d k v).map Prod.fst = d.map Prod.fst ++ [k] ∧ k ∉ d.map Prod.fst) := by
  induction d with
  | nil => exact Or.inr ⟨rfl, List.not_mem_nil _⟩
  | cons kv rest ih =>
    obtain ⟨k', vs⟩ := kv
    by_cases hk : k' = k
    · subst hk
      simp [dictAppend]
    · rw [show dictAppend ((k', vs) :: rest) k v = (k', vs) :: dictAppend rest k v from by
        simp [dictAppend, hk]]
      rcases ih with heq | ⟨heq, hnot⟩
      · exact Or.inl (by simp [heq])
      · refine Or.inr ⟨by simp [heq], ?_⟩
        simp only [List.map_cons, List.mem_cons]
        rintro (rfl | hmem)
        · exact hk rfl
        · exact hnot hmem

theorem keysOk_dictAppend (d : List (String × List String)) (k : String) (v : String)
    (hd : (d.map Prod.fst).Nodup ∧ "dependencies" ∉ d.map Prod.fst)
    (hk : k ≠ "dependencies") :
    ((dictAppend d k v).map Prod.fst).Nodup ∧
      "dependencies" ∉ (dictAppend d k v).map Prod.fst := by
  rcases keys_dictAppend d k v with heq | ⟨heq, hnot⟩
  · rw [heq]; exact hd
  · rw [heq]
    constructor
    · rw [List.nodup_append]
      exact ⟨hd.1, List.nodup_singleton k, by
        intro a ha hb
        rw [List.mem_singleton] at hb
        subst hb
        exact hnot ha⟩
    · rw [List.mem_append, List.mem_singleton]
      rintro (hmem | heq')
      · exact hd.2 hmem
      · exact hk heq'.symm

theorem keysOk_foldIf (p : String → Bool) (k : String) (hk : k ≠ "dependencies")
    (pins : List String) :
    ∀ d : List (String × List String),
    (d.map Prod.fst).Nodup ∧ "dependencies" ∉ d.map Prod.fst →
    (((pins.foldl (fun d pin => if p pin then dictAppend d k pin else d) d).map
        Prod.fst).Nodup ∧
      "dependencies" ∉ (pins.foldl
        (fun d pin => if p pin then dictAppend d k pin else d) d).map Prod.fst) := by
  induction pins with
  | nil => exact fun d hd => hd
  | cons pp ps ih =>
    intro d hd
    simp only [List.foldl_cons]
    by_cases hp : p pp
    · rw [if_pos hp]
      exact ih _ (keysOk_dictAppend d k pp hd hk)
    · rw [if_neg hp]
      exact ih d hd

theorem keysOk_overlap_groups (core_dep : String) (groups : DependencyGroups) :
    ∀ d : List (String × List String),
    (d.map Prod.fst).Nodup ∧ "dependencies" ∉ d.map Prod.fst →
    (((groups.foldl
        (fun d gp =>
          if gp.1 = "dependencies" then d
          else gp.2.foldl
            (fun d pin => if pinNameMatches core_dep pin then dictAppend d gp.1 pin else d)
            d) d).map Prod.fst).Nodup ∧
      "dependencies" ∉ (groups.foldl
        (fun d gp =>
          if gp.1 = "dependencies" then d
          else gp.2.foldl
            (fun d pin => if pinNameMatches core_dep pin then dictAppend d gp.1 pin else d)
            d) d).map Prod.fst) := by
  induction groups with
  | nil => exact fun d hd => hd
  | cons gp gps ih =>
    intro d hd
    obtain ⟨k, ps⟩ := gp
    simp only [List.foldl_cons]
    by_cases hk : k = "dependencies"
    · rw [if_pos hk]
      exact ih d hd
    · rw [if_neg hk]
      exact ih _ (keysOk_foldIf (pinNameMatches core_dep) k hk ps d hd)

theorem keysOk_collectRedundant (core : List String) (groups : DependencyGroups) :
    ((collectRedundant core groups).map Prod.fst).Nodup ∧
      "dependencies" ∉ (collectRedundant core groups).map Prod.fst := by
  unfold collectRedundant
  have main : ∀ d : List (String × List String),
      (d.map Prod.fst).Nodup ∧ "dependencies" ∉ d.map Prod.fst →
      (((core.foldl
          (fun d core_pin =>
            match split_pin core_pin with
            | none => d
            | some (core_dep, _) =>
              groups.foldl
                (fun d gp =>
                  if gp.1 = "dependencies" then d
                  else gp.2.foldl
                    (fun d pin =>
                      if pinNameMatches core_dep pin then dictAppend d gp.1 pin else d)
                    d)
                d) d).map Prod.fst).Nodup ∧
        "dependencies" ∉ (core.foldl
          (fun d core_pin =>
            match split_pin core_pin with
            | none => d
            | some (core_dep, _) =>
              groups.foldl
                (fun d gp =>
                  if gp.1 = "dependencies" then d
                  else gp.2.foldl
                    (fun d pin =>
                      if pinNameMatches core_dep pin then dictAppend d gp.1 pin else d)
                    d)
                d) d).map Prod.fst) := by
    induction core with
    | nil => exact fun d hd => hd
    | cons c0 cs ih =>
      intro d hd
      simp only [List.foldl_cons]
      cases hc0 : split_pin c0 with
      | none => exact ih d hd
      | some ncsc =>
        obtain ⟨nc0, sc0⟩ := ncsc
        exact ih _ (keysOk_overlap_groups nc0 groups d hd)
  exact main [] ⟨List.nodup_nil, List.not_mem_nil _⟩

theorem pinNameMatches_iff (nc q : String) :
    pinNameMatches nc q = true ↔
      ∃ nq sq, split_pin q = some (nq, sq) ∧ nc = nq := by
  unfold pinNameMatches
  cases hq : split_pin q with
  | none => simp
  | some p =>
    obtain ⟨nq, sq⟩ := p
    simp [beq_iff_eq]

/-- C6: the overlap rule flags a secondary-group pin exactly when its
parsed package name equals the parsed name of some primary-group pin
(version text playing no role); its fix rewrites each flagged group to
its previous document content filtered of the flagged strings (an
order-preserving removal) and leaves the primary group's document
entries untouched; without fix the document is untouched entirely. -/
theorem overlap_rule_spec (groups : DependencyGroups) (doc : Toml) (config : Config)
    (fix : Bool) (core : List String) (r : CheckResult) (doc₂ : Toml)
    (hcore : groupsPrimary groups = .ok core)
    (h : check_no_overlap_between_core_deps_and_groups groups doc config fix
        = .ok (r, doc₂)) :
    (∀ g q, q ∈ listOf r.issues g ↔
      (g ≠ "dependencies" ∧
        ∃ c nc sc, c ∈ core ∧ split_pin c = some (nc, sc) ∧
          (∃ gl, (g, gl) ∈ groups ∧ q ∈ gl) ∧
          ∃ nq sq, split_pin q = some (nq, sq) ∧ nc = nq)) ∧
    (fix = true → (∀ g ps, (g, ps) ∈ r.issues →
        ∃ cur, getDeps doc g = .ok cur ∧
          getDeps doc₂ g = .ok (cur.filter (fun dep => !ps.contains dep))) ∧
      getDeps doc₂ "dependencies" = getDeps doc "dependencies") ∧
    (fix = false → doc₂ = doc) := by
  unfold check_no_overlap_between_core_deps_and_groups at h
  rw [hcore, exceptBind_ok] at h
  by_cases hred : collectRedundant core groups = []
  · rw [if_pos hred] at h
    injection h with h
    injection h with h1 h2
    subst h2
    have hmem : ∀ g q, q ∈ listOf r.issues g ↔
        (g ≠ "dependencies" ∧
          ∃ c nc sc, c ∈ core ∧ split_pin c = some (nc, sc) ∧
            (∃ gl, (g, gl) ∈ groups ∧ q ∈ gl) ∧
            ∃ nq sq, split_pin q = some (nq, sq) ∧ nc = nq) := by
      intro g q
      have hm := mem_collectRedundant core groups g q
      rw [hred] at hm
      simp only [pinNameMatches_iff] at hm
      rw [← h1]
      simpa [listOf, lookupG] using hm
    exact ⟨hmem, fun _ => ⟨by
        intro g ps hps
        rw [← h1] at hps
        simp at hps, rfl⟩, fun _ => rfl⟩
  · rw [if_neg hred] at h
    by_cases hf : fix
    · rw [if_pos hf] at h
      cases hfold : (collectRedundant core groups).foldlM
          (fun d gp => update_dependencies_in_group d gp.1
            (fun deps => .ok (deps.filter (fun dep => !gp.2.contains dep)))) doc with
      | error e => rw [hfold] at h; cases h
      | ok docF =>
        rw [hfold, exceptBind_ok] at h
        injection h with h
        injection h with h1 h2
        subst h2
        obtain ⟨hkOk, hkDeps⟩ := keysOk_collectRedundant core groups
        obtain ⟨hpart1, hpart2⟩ := overlap_fold_spec (collectRedundant core groups)
          doc docF hkOk hfold
        refine ⟨?_, ?_, ?_⟩
        · intro g q
          rw [← h1]
          have hm := mem_collectRedundant core groups g q
          simp only [pinNameMatches_iff] at hm
          exact hm
        · intro _
          constructor
          · intro g ps hps
            rw [← h1] at hps
            exact hpart1 g ps hps
          · exact hpart2 "dependencies"
              (fun ps hin => hkDeps (List.mem_map.2 ⟨("dependencies", ps), hin, rfl⟩))
        · intro hff
          rw [hff] at hf
          cases hf
    · rw [if_neg hf] at h
      injection h with h
      injection h with h1 h2
      subst h2
      refine ⟨?_, ?_, fun _ => rfl⟩
      · intro g q
        rw [← h1]
        have hm := mem_collectRedundant core groups g q
        simp only [pinNameMatches_iff] at hm
        exact hm
      · intro hft
        rw [hft] at hf
        exact absurd rfl hf

/-- C6 witness: the overlap fix on the concrete `c6Doc` removed exactly
the flagged `pandas>=1.3.0,<2` from `ml` and left the primary group's
entries untouched. -/
theorem overlap_rule_spec_witness :
    (∃ cur, getDeps c6Doc "ml" = .ok cur ∧
      getDeps c6DocF "ml" = .ok (cur.filter (fun dep =>
        !(["pandas>=1.3.0,<2"] : List String).contains dep))) ∧
    getDeps c6DocF "dependencies" = getDeps c6Doc "dependencies" := by
  have h := overlap_rule_spec c6Groups c6Doc ⟨.major⟩ true ["pandas>=1.3.0,<2"]
    ⟨.fixed, [("ml", ["pandas>=1.3.0,<2"])]⟩ c6DocF rfl rfl
  exact ⟨(h.2.1 rfl).1 "ml" ["pandas>=1.3.0,<2"] (by decide), (h.2.1 rfl).2⟩

/-- C10: the rules consume the load-time `groups` value only for
detection (in this embedding each rule is a pure function of it,
returning just a result and a new document — mirroring that the source
never writes into the `groups` dict); every fix re-reads the current
group contents from the document.  Consequently the overlap-removal
fix, which filters by the load-time strings it flagged, never removes a
document entry whose text differs from every flagged string — in
particular one rewritten by the earlier upper-bound fix, as the
concrete pipeline run shows: `ml`'s flagged pin survives because its
document text had become `pandas>=1.3.0,<2.0.0`. -/
theorem overlap_fix_preserves_unflagged_strings :
    (∀ (groups : DependencyGroups) (doc : Toml) (config : Config) (r : CheckResult)
        (doc₂ : Toml) (g d : String) (cur : List String),
      check_no_overlap_between_core_deps_and_groups groups doc config true
          = .ok (r, doc₂) →
      getDeps doc g = .ok cur →
      d ∈ cur →
      (∀ ps, (g, ps) ∈ r.issues → d ∉ ps) →
      ∃ cur', getDeps doc₂ g = .ok cur' ∧ d ∈ cur') ∧
    run_checks c10Groups c10Doc ⟨.major⟩ true = .ok (c10Results, c10DocFinal) ∧
    listOf c10OverlapResult.issues "ml" = ["pandas>=1.3.0"] ∧
    getDeps c10DocFinal "ml" = .ok ["pandas>=1.3.0,<2.0.0"] := by
  refine ⟨?_, rfl, by decide, rfl⟩
  intro groups doc config r doc₂ g d cur h hcur hd hno
  unfold check_no_overlap_between_core_deps_and_groups at h
  cases hcore : groupsPrimary groups with
  | error e => rw [hcore] at h; cases h
  | ok core =>
    rw [hcore, exceptBind_ok] at h
    by_cases hred : collectRedundant core groups = []
    · rw [if_pos hred] at h
      injection h with h
      injection h with h1 h2
      subst h2
      exact ⟨cur, hcur, hd⟩
    · rw [if_neg hred, if_pos rfl] at h
      cases hfold : (collectRedundant core groups).foldlM
          (fun d gp => update_dependencies_in_group d gp.1
            (fun deps => .ok (deps.filter (fun dep => !gp.2.contains dep)))) doc with
      | error e => rw [hfold] at h; cases h
      | ok docF =>
        rw [hfold, exceptBind_ok] at h
        injection h with h
        injection h with h1 h2
        subst h2
        obtain ⟨hkOk, -⟩ := keysOk_collectRedundant core groups
        obtain ⟨hpart1, hpart2⟩ := overlap_fold_spec (collectRedundant core groups)
          doc docF hkOk hfold
        by_cases hex : ∃ ps, (g, ps) ∈ collectRedundant core groups
        · obtain ⟨ps, hin⟩ := hex
          obtain ⟨cur₁, hcur₁, hres⟩ := hpart1 g ps hin
          rw [hcur] at hcur₁
          injection hcur₁ with hcur₁
          subst hcur₁
          refine ⟨_, hres, ?_⟩
          refine List.mem_filter.2 ⟨hd, ?_⟩
          have hnotin : d ∉ ps := by
            apply hno ps
            rw [← h1]
            exact hin
          simp [hnotin]
        · rw [hpart2 g (fun ps hin => hex ⟨ps, hin⟩)]
          exact ⟨cur, hcur, hd⟩

/-- C10 witness: the general survival statement applied on the concrete
post-upper-bound-fix document, where the flagged string
`pandas>=1.3.0` no longer occurs. -/
theorem overlap_fix_preserves_unflagged_strings_witness :
    ∃ cur', getDeps c10DocFinal "ml" = .ok cur' ∧ "pandas>=1.3.0,<2.0.0" ∈ cur' := by
  refine overlap_fix_preserves_unflagged_strings.1 c10Groups
    (Toml.table
      [("project", .table
          [("dependencies", .arr [.str "pandas>=1.3.0,<2.0.0"]),
           ("optional-dependencies", .table
              [("ml", .arr [.str "pandas>=1.3.0,<2.0.0"])])])])
    ⟨.major⟩ c10OverlapResult c10DocFinal "ml" "pandas>=1.3.0,<2.0.0"
    ["pandas>=1.3.0,<2.0.0"] rfl rfl (by decide) ?_
  intro ps hps
  have hps' : ("ml", ps) = ("ml", ["pandas>=1.3.0"]) := by
    simpa [c10OverlapResult] using hps
  have h2 : ps = ["pandas>=1.3.0"] := congrArg Prod.snd hps'
  subst h2
  decide

theorem takeWhile_dropWhile_append (p : Char → Bool) (l r : List Char)
    (hl : ∀ c ∈ l, p c = true)
    (hr : match r with | [] => True | h :: _ => p h = false) :
    (l ++ r).takeWhile p = l ∧ (l ++ r).dropWhile p = r := by
  induction l with
  | nil =>
    simp only [List.nil_append]
    cases r with
    | nil => simp
    | cons h t =>
      simp only at hr
      simp [List.takeWhile, List.dropWhile, hr]
  | cons a l ih =>
    have ha : p a = true := hl a (List.mem_cons_self _ _)
    obtain ⟨ih1, ih2⟩ := ih (fun c hc => hl c (List.mem_cons_of_mem _ hc))
    simp [List.takeWhile, List.dropWhile, ha, ih1, ih2]

theorem mem_insertSorted (x : String) (l : List String) (a : String) :
    a ∈ insertSorted x l ↔ a = x ∨ a ∈ l := by
  induction l with
  | nil => simp [insertSorted]
  | cons y ys ih =>
    unfold insertSorted
    by_cases h : x ≤ y
    · simp [h]
    · rw [if_neg h]
      simp only [List.mem_cons, ih]
      tauto

theorem mem_pySortedStr (l : List String) (a : String) :
    a ∈ pySortedStr l ↔ a ∈ l := by
  induction l with
  | nil => simp [pySortedStr]
  | cons x xs ih =>
    unfold pySortedStr at ih ⊢
    rw [List.foldr_cons, mem_insertSorted, ih, List.mem_cons]

theorem pySortedStr_ne_nil (l : List String) (h : l ≠ []) : pySortedStr l ≠ [] := by
  cases l with
  | nil => exact absurd rfl h
  | cons x xs =>
    intro hcon
    have : x ∈ pySortedStr (x :: xs) := (mem_pySortedStr _ _).2 (List.mem_cons_self _ _)
    rw [hcon] at this
    exact List.not_mem_nil _ this

theorem toDigitsCore_shape (f : Nat) : ∀ (n : Nat) (ds : List Char),
    ∃ pre, Nat.toDigitsCore 10 f n ds = pre ++ ds ∧
      ∀ c ∈ pre, ∃ m, m < 10 ∧ c = Nat.digitChar m := by
  induction f with
  | zero => intro n ds; exact ⟨[], rfl, by simp⟩
  | succ f ih =>
    intro n ds
    unfold Nat.toDigitsCore
    by_cases h : n / 10 = 0
    · refine ⟨[Nat.digitChar (n % 10)], by simp [h], ?_⟩
      intro c hc
      simp at hc
      exact ⟨n % 10, Nat.mod_lt n (by norm_num), hc⟩
    · simp only [h, if_false]
      obtain ⟨pre, hp, hd⟩ := ih (n / 10) (Nat.digitChar (n % 10) :: ds)
      refine ⟨pre ++ [Nat.digitChar (n % 10)], by simp [hp], ?_⟩
      intro c hc
      rcases List.mem_append.1 hc with h1 | h1
      · exact hd c h1
      · simp at h1
        exact ⟨n % 10, Nat.mod_lt n (by norm_num), h1⟩

theorem toDigitsCore_ne_nil (f n : Nat) (ds : List Char) (hf : 0 < f) :
    Nat.toDigitsCore 10 f n ds ≠ [] := by
  cases f with
  | zero => omega
  | succ f =>
    unfold Nat.toDigitsCore
    by_cases h : n / 10 = 0
    · simp [h]
    · simp only [h, if_false]
      obtain ⟨pre, hp, -⟩ := toDigitsCore_shape f (n / 10) (Nat.digitChar (n % 10) :: ds)
      rw [hp]
      simp

theorem digitChar_isDigit {m : Nat} (h : m < 10) : (Nat.digitChar m).isDigit = true := by
  interval_cases m <;> decide

theorem natRepr_digits (n : Nat) :
    (Nat.repr n).data ≠ [] ∧ ∀ c ∈ (Nat.repr n).data, c.isDigit = true := by
  have hdata : (Nat.repr n).data = Nat.toDigits 10 n := List.toList_asString _
  obtain ⟨pre, hp, hd⟩ := toDigitsCore_shape (n + 1) n []
  constructor
  · rw [hdata]
    exact toDigitsCore_ne_nil (n + 1) n [] (Nat.succ_pos n)
  · intro c hc
    rw [hdata] at hc
    have hpre : c ∈ pre := by
      have heq : Nat.toDigits 10 n = pre := by simpa using hp
      rwa [heq] at hc
    obtain ⟨m, hm, rfl⟩ := hd c hpre
    exact digitChar_isDigit hm

theorem isDigit_isVersionChar {c : Char} (h : c.isDigit = true) :
    isVersionChar c = true := by
  simp [isVersionChar, isNameChar, h]

/-- The synthesized bound's text always starts with a digit and
consists of digits and dots only. -/
theorem synthUpper_chars (st : PinningStrategy) (a b c : Nat) :
    (∃ h t, (synthUpper st a b c).data = h :: t ∧ h.isDigit = true) ∧
      ∀ ch ∈ (synthUpper st a b c).data, isVersionChar ch = true := by
  have dot : isVersionChar '.' = true := by decide
  have hApp : ∀ (x y : String), (x ++ y).data = x.data ++ y.data := String.data_append
  cases st with
  | major =>
    obtain ⟨hne, hdig⟩ := natRepr_digits (a + 1)
    constructor
    · obtain ⟨h, t, hht⟩ := List.exists_cons_of_ne_nil hne
      refine ⟨h, t ++ (".0.0" : String).data, ?_, hdig h (by rw [hht]; exact List.mem_cons_self _ _)⟩
      show (Nat.repr (a + 1) ++ ".0.0").data = _
      rw [hApp, hht]
      simp
    · intro ch hch
      rw [show (synthUpper .major a b c) = Nat.repr (a + 1) ++ ".0.0" from rfl, hApp] at hch
      rcases List.mem_append.1 hch with h1 | h1
      · exact isDigit_isVersionChar (hdig ch h1)
      · rw [show ((".0.0" : String)).data = ['.', '0', '.', '0'] from rfl] at h1
        simp only [List.mem_cons, List.not_mem_nil, or_false] at h1
        rcases h1 with rfl | rfl | rfl | rfl <;> decide
  | minor =>
    obtain ⟨hne, hdig⟩ := natRepr_digits a
    obtain ⟨hne2, hdig2⟩ := natRepr_digits (b + 1)
    constructor
    · obtain ⟨h, t, hht⟩ := List.exists_cons_of_ne_nil hne
      refine ⟨h, t ++ ("." : String).data ++ (Nat.repr (b + 1)).data ++ (".0" : String).data,
        ?_, hdig h (by rw [hht]; exact List.mem_cons_self _ _)⟩
      show (Nat.repr a ++ "." ++ Nat.repr (b + 1) ++ ".0").data = _
      rw [hApp, hApp, hApp, hht]
      simp
    · intro ch hch
      rw [show (synthUpper .minor a b c) = Nat.repr a ++ "." ++ Nat.repr (b + 1) ++ ".0" from rfl,
        hApp, hApp, hApp] at hch
      rcases List.mem_append.1 hch with h1 | h1
      · rcases List.mem_append.1 h1 with h2 | h2
        · rcases List.mem_append.1 h2 with h3 | h3
          · exact isDigit_isVersionChar (hdig ch h3)
          · rw [show (("." : String)).data = ['.'] from rfl] at h3
            simp only [List.mem_cons, List.not_mem_nil, or_false] at h3
            subst h3
            decide
        · exact isDigit_isVersionChar (hdig2 ch h2)
      · rw [show ((".0" : String)).data = ['.', '0'] from rfl] at h1
        simp only [List.mem_cons, List.not_mem_nil, or_false] at h1
        rcases h1 with rfl | rfl <;> decide
  | patch =>
    obtain ⟨hne, hdig⟩ := natRepr_digits a
    obtain ⟨hne2, hdig2⟩ := natRepr_digits b
    obtain ⟨hne3, hdig3⟩ := natRepr_digits (c + 1)
    constructor
    · obtain ⟨h, t, hht⟩ := List.exists_cons_of_ne_nil hne
      refine ⟨h, t ++ ("." : String).data ++ (Nat.repr b).data ++ ("." : String).data
          ++ (Nat.repr (c + 1)).data,
        ?_, hdig h (by rw [hht]; exact List.mem_cons_self _ _)⟩
      show (Nat.repr a ++ "." ++ Nat.repr b ++ "." ++ Nat.repr (c + 1)).data = _
      rw [hApp, hApp, hApp, hApp, hht]
      simp
    · intro ch hch
      rw [show (synthUpper .patch a b c)
          = Nat.repr a ++ "." ++ Nat.repr b ++ "." ++ Nat.repr (c + 1) from rfl,
        hApp, hApp, hApp, hApp] at hch
      rcases List.mem_append.1 hch with h1 | h1
      · rcases List.mem_append.1 h1 with h2 | h2
        · rcases List.mem_append.1 h2 with h3 | h3
          · rcases List.mem_append.1 h3 with h4 | h4
            · exact isDigit_isVersionChar (hdig ch h4)
            · rw [show (("." : String)).data = ['.'] from rfl] at h4
              simp only [List.mem_cons, List.not_mem_nil, or_false] at h4
              subst h4
              decide
          · exact isDigit_isVersionChar (hdig2 ch h3)
        · rw [show (("." : String)).data = ['.'] from rfl] at h2
          simp only [List.mem_cons, List.not_mem_nil, or_false] at h2
          subst h2
          decide
      · exact isDigit_isVersionChar (hdig3 ch h1)

theorem parseSpecsAux_succ (f : Nat) (cs : List Char) :
    parseSpecsAux (f + 1) cs =
      match parseOp cs with
      | none => none
      | some (op, rest) =>
        if (rest.takeWhile isVersionChar).isEmpty then none
        else
          match rest.dropWhile isVersionChar with
          | [] => some [⟨op, (rest.takeWhile isVersionChar).asString⟩]
          | ',' :: more =>
            (parseSpecsAux f more).map (⟨op, (rest.takeWhile isVersionChar).asString⟩ :: ·)
          | _ => none := rfl

theorem parseSpecsAux_chars : ∀ (fuel : Nat) (cs : List Char) (sps : List Specifier),
    parseSpecsAux fuel cs = some sps →
    ∀ sp ∈ sps, sp.version.data ≠ [] ∧ ∀ c ∈ sp.version.data, isVersionChar c = true := by
  intro fuel
  induction fuel with
  | zero => intro cs sps h; cases h
  | succ f ih =>
    intro cs sps h
    rw [parseSpecsAux_succ] at h
    cases hop : parseOp cs with
    | none => rw [hop] at h; cases h
    | some oprest =>
      obtain ⟨op, rest⟩ := oprest
      rw [hop] at h
      replace h : (if (List.takeWhile isVersionChar rest).isEmpty = true then none
          else
            match List.dropWhile isVersionChar rest with
            | [] => some [(⟨op, (List.takeWhile isVersionChar rest).asString⟩ : Specifier)]
            | ',' :: more =>
              (parseSpecsAux f more).map
                ((⟨op, (List.takeWhile isVersionChar rest).asString⟩ : Specifier) :: ·)
            | _ => none) = some sps := h
      by_cases hemp : (rest.takeWhile isVersionChar).isEmpty
      · rw [if_pos hemp] at h; cases h
      · rw [if_neg hemp] at h
        have hver : (rest.takeWhile isVersionChar).asString.data
            = rest.takeWhile isVersionChar := List.toList_asString _
        have hvfacts : (rest.takeWhile isVersionChar).asString.data ≠ [] ∧
            ∀ c ∈ (rest.takeWhile isVersionChar).asString.data, isVersionChar c = true := by
          rw [hver]
          refine ⟨fun hcon => hemp (by rw [hcon]; rfl), ?_⟩
          intro c hc
          exact List.mem_takeWhile_imp hc
        cases hdrop : rest.dropWhile isVersionChar with
        | nil =>
          rw [hdrop] at h
          injection h with h
          subst h
          intro sp hsp
          rw [List.mem_singleton] at hsp
          subst hsp
          exact hvfacts
        | cons c0 rest2 =>
          rw [hdrop] at h
          by_cases hc : c0 = ','
          · subst hc
            replace h : (parseSpecsAux f rest2).map
                ((⟨op, (List.takeWhile isVersionChar rest).asString⟩ : Specifier) :: ·)
                = some sps := h
            cases hrec : parseSpecsAux f rest2 with
            | none => rw [hrec] at h; cases h
            | some sps' =>
              rw [hrec] at h
              replace h : some ((⟨op, (List.takeWhile isVersionChar rest).asString⟩ : Specifier)
                  :: sps') = some sps := h
              injection h with h
              subst h
              intro sp hsp
              rcases List.mem_cons.1 hsp with rfl | hsp
              · exact hvfacts
              · exact ih rest2 sps' hrec sp hsp
          · have : (match (c0 :: rest2 : List Char) with
                | [] => some [(⟨op, (rest.takeWhile isVersionChar).asString⟩ : Specifier)]
                | ',' :: more => (parseSpecsAux f more).map
                    ((⟨op, (rest.takeWhile isVersionChar).asString⟩ : Specifier) :: ·)
                | _ => none) = none := by
              cases c0 with
              | mk v hv =>
                split
                · rename_i heq; cases heq
                · rename_i heq
                  injection heq with h1 h2
                  exact absurd h1 hc
                · rfl
            rw [this] at h
            cases h

theorem parseSpecs_chars (cs : List Char) (sps : List Specifier)
    (h : parseSpecs cs = some sps) :
    ∀ sp ∈ sps, sp.version.data ≠ [] ∧ ∀ c ∈ sp.version.data, isVersionChar c = true := by
  unfold parseSpecs at h
  by_cases hemp : cs.isEmpty
  · rw [if_pos hemp] at h
    injection h with h
    subst h
    intro sp hsp
    cases hsp
  · rw [if_neg hemp] at h
    cases hlen : cs.length with
    | zero =>
      rw [hlen] at h
      cases h
    | succ n =>
      rw [hlen] at h
      exact parseSpecsAux_chars (n + 1) cs sps h

theorem parseExtrasAux_succ (f : Nat) (cs : List Char) :
    parseExtrasAux (f + 1) cs =
      (if (cs.takeWhile isNameChar).isEmpty then none
      else match cs.dropWhile isNameChar with
        | ']' :: rest' => some ([(cs.takeWhile isNameChar).asString], rest')
        | ',' :: rest' => (parseExtrasAux f rest').map
            (fun er => ((cs.takeWhile isNameChar).asString :: er.1, er.2))
        | _ => none) := rfl

theorem parseExtrasAux_chars : ∀ (fuel : Nat) (cs : List Char)
    (esrest : List String × List Char),
    parseExtrasAux fuel cs = some esrest →
    ∀ e ∈ esrest.1, e.data ≠ [] ∧ ∀ c ∈ e.data, isNameChar c = true := by
  intro fuel
  induction fuel with
  | zero => intro cs esrest h; cases h
  | succ f ih =>
    intro cs esrest h
    rw [parseExtrasAux_succ] at h
    by_cases hemp : (cs.takeWhile isNameChar).isEmpty
    · rw [if_pos hemp] at h; cases h
    · rw [if_neg hemp] at h
      have hident : (cs.takeWhile isNameChar).asString.data ≠ [] ∧
          ∀ c ∈ (cs.takeWhile isNameChar).asString.data, isNameChar c = true := by
        rw [show (cs.takeWhile isNameChar).asString.data = cs.takeWhile isNameChar from
          List.toList_asString _]
        refine ⟨fun hcon => hemp (by rw [hcon]; rfl), ?_⟩
        intro c hc
        exact List.mem_takeWhile_imp hc
      split at h
      · injection h with h
        subst h
        intro e he
        rw [List.mem_singleton] at he
        subst he
        exact hident
      · rename_i rest' heq
        cases hrec : parseExtrasAux f rest' with
        | none => rw [hrec] at h; cases h
        | some er =>
          rw [hrec] at h
          replace h : some ((cs.takeWhile isNameChar).asString :: er.1, er.2)
              = some esrest := h
          injection h with h
          subst h
          intro e he
          rcases List.mem_cons.1 he with rfl | he
          · exact hident
          · exact ih rest' er hrec e he
      · cases h

theorem parseRequirement_chars (s : String) (r : Requirement)
    (h : parseRequirement s = some r) :
    (r.name.data ≠ [] ∧ ∀ c ∈ r.name.data, isNameChar c = true) ∧
    (∀ e ∈ r.extras, e.data ≠ [] ∧ ∀ c ∈ e.data, isNameChar c = true) ∧
    (∀ sp ∈ r.specs, sp.version.data ≠ [] ∧ ∀ c ∈ sp.version.data, isVersionChar c = true) := by
  unfold parseRequirement at h
  by_cases hemp : (s.data.takeWhile isNameChar).isEmpty
  · rw [if_pos hemp] at h; cases h
  · rw [if_neg hemp] at h
    have hname : (s.data.takeWhile isNameChar).asString.data ≠ [] ∧
        ∀ c ∈ (s.data.takeWhile isNameChar).asString.data, isNameChar c = true := by
      rw [show (s.data.takeWhile isNameChar).asString.data = s.data.takeWhile isNameChar from
        List.toList_asString _]
      refine ⟨fun hcon => hemp (by rw [hcon]; rfl), ?_⟩
      intro c hc
      exact List.mem_takeWhile_imp hc
    split at h
    · -- extras branch
      rename_i rest' heq
      cases hex : parseExtrasAux (rest'.length + 1) rest' with
      | none => rw [hex] at h; cases h
      | some er =>
        rw [hex] at h
        replace h : (parseSpecs er.2).map
            (fun sp => (⟨(s.data.takeWhile isNameChar).asString, er.1, sp⟩ : Requirement))
            = some r := by
          cases er with
          | mk es rest'' => exact h
        cases hsp : parseSpecs er.2 with
        | none => rw [hsp] at h; cases h
        | some sps =>
          rw [hsp] at h
          replace h : some (⟨(s.data.takeWhile isNameChar).asString, er.1, sps⟩ : Requirement)
              = some r := h
          injection h with h
          subst h
          exact ⟨hname, fun e he => parseExtrasAux_chars _ rest' er hex e he,
            fun sp hsp' => parseSpecs_chars er.2 sps hsp sp hsp'⟩
    · -- no extras
      cases hsp : parseSpecs (s.data.dropWhile isNameChar) with
      | none => rw [hsp] at h; cases h
      | some sps =>
        rw [hsp] at h
        replace h : some (⟨(s.data.takeWhile isNameChar).asString, [], sps⟩ : Requirement)
            = some r := h
        injection h with h
        subst h
        exact ⟨hname, fun e he => absurd he (List.not_mem_nil _),
          fun sp hsp' => parseSpecs_chars _ sps hsp sp hsp'⟩

theorem parseOp_ge (rest : List Char) : parseOp ('>' :: '=' :: rest) = some (.ge, rest) := by
  unfold parseOp
  rw [if_neg (by cases rest <;> simp), if_neg (by simp), if_neg (by simp),
    if_neg (by simp), if_pos (by simp)]
  rfl

theorem parseOp_lt (u : Char) (us : List Char) (hu : u ≠ '=') :
    parseOp ('<' :: u :: us) = some (.lt, u :: us) := by
  unfold parseOp
  rw [if_neg (by simp), if_neg (by simp), if_neg (by simp), if_neg (by simp),
    if_neg (by simp), if_neg (by simp [hu]), if_neg (by simp), if_pos (by simp)]
  rfl

theorem parseSpecsAux_lt (f : Nat) (u : Char) (us : List Char)
    (hu : u ≠ '=') (hall : ∀ c ∈ u :: us, isVersionChar c = true) :
    parseSpecsAux (f + 1) ('<' :: u :: us) = some [⟨.lt, (u :: us).asString⟩] := by
  rw [parseSpecsAux_succ, parseOp_lt u us hu]
  have htw : (u :: us).takeWhile isVersionChar = u :: us :=
    List.takeWhile_eq_self_iff.mpr hall
  have hdw : (u :: us).dropWhile isVersionChar = [] :=
    List.dropWhile_eq_nil_iff.mpr hall
  show (if ((u :: us).takeWhile isVersionChar).isEmpty = true then none
    else match (u :: us).dropWhile isVersionChar with
      | [] => some [(⟨Op.lt, ((u :: us).takeWhile isVersionChar).asString⟩ : Specifier)]
      | ',' :: more => (parseSpecsAux f more).map
          ((⟨Op.lt, ((u :: us).takeWhile isVersionChar).asString⟩ : Specifier) :: ·)
      | _ => none) = some [⟨.lt, (u :: us).asString⟩]
  rw [htw, hdw]
  rfl

theorem parseSpecsAux_ge_lt (f : Nat) (lo : List Char) (u : Char) (us : List Char)
    (hlo : lo ≠ []) (hloAll : ∀ c ∈ lo, isVersionChar c = true)
    (hu : u ≠ '=') (hupAll : ∀ c ∈ u :: us, isVersionChar c = true) :
    parseSpecsAux (f + 1 + 1) ('>' :: '=' :: (lo ++ ',' :: '<' :: u :: us))
      = some [⟨.ge, lo.asString⟩, ⟨.lt, (u :: us).asString⟩] := by
  rw [parseSpecsAux_succ, parseOp_ge]
  obtain ⟨htw, hdw⟩ := takeWhile_dropWhile_append isVersionChar lo
    (',' :: '<' :: u :: us) hloAll (show isVersionChar ',' = false from by decide)
  have hle : lo.isEmpty = false := by
    cases lo with
    | nil => exact absurd rfl hlo
    | cons a as => rfl
  show (if ((lo ++ ',' :: '<' :: u :: us).takeWhile isVersionChar).isEmpty = true then none
    else match (lo ++ ',' :: '<' :: u :: us).dropWhile isVersionChar with
      | [] => some [(⟨Op.ge,
          ((lo ++ ',' :: '<' :: u :: us).takeWhile isVersionChar).asString⟩ : Specifier)]
      | ',' :: more => (parseSpecsAux (f + 1) more).map
          ((⟨Op.ge,
            ((lo ++ ',' :: '<' :: u :: us).takeWhile isVersionChar).asString⟩ : Specifier) :: ·)
      | _ => none) = some [⟨.ge, lo.asString⟩, ⟨.lt, (u :: us).asString⟩]
  rw [htw, hdw, hle]
  show (parseSpecsAux (f + 1) ('<' :: u :: us)).map
    ((⟨.ge, lo.asString⟩ : Specifier) :: ·) = _
  rw [parseSpecsAux_lt f u us hu hupAll]
  rfl

theorem data_asString_self (x : String) : x.data.asString = x :=
  String.asString_toList x

theorem joinComma_cons_cons (e e2 : String) (es : List String) :
    joinComma (e :: e2 :: es) = e ++ "," ++ joinComma (e2 :: es) := rfl

theorem joinComma_data_cons_cons (e e2 : String) (es : List String) :
    (joinComma (e :: e2 :: es)).data = e.data ++ ',' :: (joinComma (e2 :: es)).data := by
  rw [joinComma_cons_cons, String.data_append, String.data_append]
  simp

theorem parseExtrasAux_render : ∀ (es : List String) (k : Nat) (rest : List Char),
    es ≠ [] → (∀ e ∈ es, e.data ≠ [] ∧ ∀ c ∈ e.data, isNameChar c = true) →
    parseExtrasAux (es.length + k) ((joinComma es).data ++ ']' :: rest) = some (es, rest) := by
  intro es
  induction es with
  | nil => intro k rest h; exact absurd rfl h
  | cons e es' ih =>
    intro k rest _ hfacts
    obtain ⟨hene, hechars⟩ := hfacts e (List.mem_cons_self _ _)
    cases es' with
    | nil =>
      rw [show ([e] : List String).length + k = k + 1 from by simp [Nat.add_comm],
        parseExtrasAux_succ]
      obtain ⟨htw, hdw⟩ := takeWhile_dropWhile_append isNameChar e.data (']' :: rest)
        hechars (show isNameChar ']' = false from by decide)
      rw [show (joinComma [e]).data = e.data from rfl]
      show (if ((e.data ++ ']' :: rest).takeWhile isNameChar).isEmpty = true then none
        else match (e.data ++ ']' :: rest).dropWhile isNameChar with
          | ']' :: rest' =>
            some ([((e.data ++ ']' :: rest).takeWhile isNameChar).asString], rest')
          | ',' :: rest' => (parseExtrasAux k rest').map
              (fun er => (((e.data ++ ']' :: rest).takeWhile isNameChar).asString :: er.1, er.2))
          | _ => none) = some ([e], rest)
      rw [htw, hdw]
      have hie : e.data.isEmpty = false := by
        cases hd : e.data with
        | nil => exact absurd hd hene
        | cons a as => rfl
      rw [hie]
      show some ([e.data.asString], rest) = some ([e], rest)
      rw [data_asString_self]
    | cons e2 es'' =>
      rw [show (e :: e2 :: es'' : List String).length + k
          = ((e2 :: es'' : List String).length + k) + 1 from by simp; omega,
        parseExtrasAux_succ]
      have hjd : ((joinComma (e :: e2 :: es'')).data ++ ']' :: rest)
          = e.data ++ ',' :: ((joinComma (e2 :: es'')).data ++ ']' :: rest) := by
        rw [joinComma_data_cons_cons]
        simp
      rw [hjd]
      obtain ⟨htw, hdw⟩ := takeWhile_dropWhile_append isNameChar e.data
        (',' :: ((joinComma (e2 :: es'')).data ++ ']' :: rest))
        hechars (show isNameChar ',' = false from by decide)
      show (if ((e.data ++ ',' :: ((joinComma (e2 :: es'')).data ++ ']' :: rest)).takeWhile
            isNameChar).isEmpty = true then none
        else match (e.data ++ ',' :: ((joinComma (e2 :: es'')).data ++ ']' :: rest)).dropWhile
            isNameChar with
          | ']' :: rest' =>
            some ([((e.data ++ ',' :: ((joinComma (e2 :: es'')).data ++ ']' :: rest)).takeWhile
              isNameChar).asString], rest')
          | ',' :: rest' => (parseExtrasAux ((e2 :: es'' : List String).length + k) rest').map
              (fun er =>
                (((e.data ++ ',' :: ((joinComma (e2 :: es'')).data ++ ']' :: rest)).takeWhile
                  isNameChar).asString :: er.1, er.2))
          | _ => none) = some (e :: e2 :: es'', rest)
      rw [htw, hdw]
      have hie : e.data.isEmpty = false := by
        cases hd : e.data with
        | nil => exact absurd hd hene
        | cons a as => rfl
      rw [hie]
      show (parseExtrasAux ((e2 :: es'' : List String).length + k)
          ((joinComma (e2 :: es'')).data ++ ']' :: rest)).map
          (fun er => (e.data.asString :: er.1, er.2)) = some (e :: e2 :: es'', rest)
      rw [ih k rest (by simp) (fun x hx => hfacts x (List.mem_cons_of_mem _ hx))]
      show some (e.data.asString :: e2 :: es'', rest) = some (e :: e2 :: es'', rest)
      rw [data_asString_self]

theorem joinComma_length_ge : ∀ es : List String, (∀ e ∈ es, e.data ≠ []) →
    es.length ≤ (joinComma es).data.length + 1 := by
  intro es
  induction es with
  | nil => intro _; simp
  | cons e es' ih =>
    intro hne
    cases es' with
    | nil =>
      simp
    | cons e2 es'' =>
      have h1 : 1 ≤ e.data.length :=
        List.length_pos.2 (hne e (List.mem_cons_self _ _))
      have h2 := ih (fun x hx => hne x (List.mem_cons_of_mem _ hx))
      rw [joinComma_data_cons_cons]
      simp only [List.length_cons, List.length_append]
      simp only [List.length_cons] at h2
      omega

theorem parseRequirement_eq (s : String) :
    parseRequirement s =
      (if (s.data.takeWhile isNameChar).isEmpty then none
      else match s.data.dropWhile isNameChar with
        | '[' :: rest' =>
          match parseExtrasAux (rest'.length + 1) rest' with
          | none => none
          | some (extras, rest'') => (parseSpecs rest'').map
              (fun sp => ⟨(s.data.takeWhile isNameChar).asString, extras, sp⟩)
        | _ => (parseSpecs (s.data.dropWhile isNameChar)).map
            (fun sp => ⟨(s.data.takeWhile isNameChar).asString, [], sp⟩)) := rfl

/-- Re-parsing the string `_add_upper_bound` builds recovers the name,
the sorted deduplicated extras, and exactly the `>=`/`<` clause pair. -/
theorem parseRequirement_render (name lo up : String) (u : Char) (us : List Char)
    (extras : List String)
    (hname : name.data ≠ [] ∧ ∀ c ∈ name.data, isNameChar c = true)
    (hlo : lo.data ≠ [] ∧ ∀ c ∈ lo.data, isVersionChar c = true)
    (hupd : up.data = u :: us)
    (hu : u ≠ '=')
    (hupAll : ∀ c ∈ u :: us, isVersionChar c = true)
    (hex : ∀ e ∈ extras, e.data ≠ [] ∧ ∀ c ∈ e.data, isNameChar c = true) :
    parseRequirement (name ++ extrasStr extras ++ ">=" ++ lo ++ "," ++ "<" ++ up)
      = some ⟨name, pySortedStr extras.dedup, [⟨.ge, lo⟩, ⟨.lt, up⟩]⟩ := by
  have hnie : name.data.isEmpty = false := by
    cases hd : name.data with
    | nil => exact absurd hd hname.1
    | cons a as => rfl
  by_cases hext : extras = []
  · subst hext
    have hSdata : (name ++ extrasStr [] ++ ">=" ++ lo ++ "," ++ "<" ++ up).data
        = name.data ++ '>' :: '=' :: (lo.data ++ ',' :: '<' :: (u :: us)) := by
      simp [String.data_append, hupd, extrasStr]
    rw [parseRequirement_eq, hSdata]
    obtain ⟨htw, hdw⟩ := takeWhile_dropWhile_append isNameChar name.data
      ('>' :: '=' :: (lo.data ++ ',' :: '<' :: (u :: us))) hname.2
      (show isNameChar '>' = false from by decide)
    rw [htw, hdw, hnie]
    show (parseSpecs ('>' :: '=' :: (lo.data ++ ',' :: '<' :: (u :: us)))).map
        (fun sp => (⟨name.data.asString, [], sp⟩ : Requirement)) = _
    have hps : parseSpecs ('>' :: '=' :: (lo.data ++ ',' :: '<' :: (u :: us)))
        = parseSpecsAux ('>' :: '=' :: (lo.data ++ ',' :: '<' :: (u :: us))).length
            ('>' :: '=' :: (lo.data ++ ',' :: '<' :: (u :: us))) := rfl
    rw [hps, show ('>' :: '=' :: (lo.data ++ ',' :: '<' :: (u :: us)) : List Char).length
        = (lo.data.length + us.length + 3) + 1 + 1 from by simp [List.length_append]; omega,
      parseSpecsAux_ge_lt (lo.data.length + us.length + 3) lo.data u us hlo.1 hlo.2 hu hupAll]
    show some (⟨name.data.asString, [],
        [⟨.ge, lo.data.asString⟩, ⟨.lt, (u :: us).asString⟩]⟩ : Requirement) = _
    rw [data_asString_self, data_asString_self, ← hupd, data_asString_self]
    rfl
  · have hesne : pySortedStr extras.dedup ≠ [] := by
      refine pySortedStr_ne_nil _ ?_
      rw [Ne, List.dedup_eq_nil]
      exact hext
    have hexmem : ∀ e ∈ pySortedStr extras.dedup,
        e.data ≠ [] ∧ ∀ c ∈ e.data, isNameChar c = true :=
      fun e he => hex e (List.mem_dedup.1 ((mem_pySortedStr _ _).1 he))
    have hexs : extrasStr extras = "[" ++ joinComma (pySortedStr extras.dedup) ++ "]" := by
      unfold extrasStr
      rw [if_neg (by cases extras with
        | nil => exact absurd rfl hext
        | cons a as => simp)]
    have hSdata : (name ++ extrasStr extras ++ ">=" ++ lo ++ "," ++ "<" ++ up).data
        = name.data ++ '[' :: ((joinComma (pySortedStr extras.dedup)).data
            ++ ']' :: ('>' :: '=' :: (lo.data ++ ',' :: '<' :: (u :: us)))) := by
      rw [hexs]
      simp [String.data_append, hupd]
    rw [parseRequirement_eq, hSdata]
    obtain ⟨htw, hdw⟩ := takeWhile_dropWhile_append isNameChar name.data
      ('[' :: ((joinComma (pySortedStr extras.dedup)).data
        ++ ']' :: ('>' :: '=' :: (lo.data ++ ',' :: '<' :: (u :: us)))))
      hname.2 (show isNameChar '[' = false from by decide)
    rw [htw, hdw, hnie]
    show (match parseExtrasAux
        (((joinComma (pySortedStr extras.dedup)).data
          ++ ']' :: ('>' :: '=' :: (lo.data ++ ',' :: '<' :: (u :: us)))).length + 1)
        ((joinComma (pySortedStr extras.dedup)).data
          ++ ']' :: ('>' :: '=' :: (lo.data ++ ',' :: '<' :: (u :: us)))) with
      | none => none
      | some (extras', rest'') => (parseSpecs rest'').map
          (fun sp => (⟨name.data.asString, extras', sp⟩ : Requirement))) = _
    have hlb : (pySortedStr extras.dedup).length
        ≤ (joinComma (pySortedStr extras.dedup)).data.length + 1 :=
      joinComma_length_ge _ (fun e he => (hexmem e he).1)
    have hlen2 : (pySortedStr extras.dedup).length
        ≤ ((joinComma (pySortedStr extras.dedup)).data
          ++ ']' :: ('>' :: '=' :: (lo.data ++ ',' :: '<' :: (u :: us)))).length + 1 := by
      simp only [List.length_append, List.length_cons]
      omega
    obtain ⟨k, hk⟩ := Nat.le.dest hlen2
    rw [← hk, parseExtrasAux_render (pySortedStr extras.dedup) k
      ('>' :: '=' :: (lo.data ++ ',' :: '<' :: (u :: us))) hesne hexmem]
    show (parseSpecs ('>' :: '=' :: (lo.data ++ ',' :: '<' :: (u :: us)))).map
        (fun sp => (⟨name.data.asString, pySortedStr extras.dedup, sp⟩ : Requirement)) = _
    have hps : parseSpecs ('>' :: '=' :: (lo.data ++ ',' :: '<' :: (u :: us)))
        = parseSpecsAux ('>' :: '=' :: (lo.data ++ ',' :: '<' :: (u :: us))).length
            ('>' :: '=' :: (lo.data ++ ',' :: '<' :: (u :: us))) := rfl
    rw [hps, show ('>' :: '=' :: (lo.data ++ ',' :: '<' :: (u :: us)) : List Char).length
        = (lo.data.length + us.length + 3) + 1 + 1 from by simp [List.length_append]; omega,
      parseSpecsAux_ge_lt (lo.data.length + us.length + 3) lo.data u us hlo.1 hlo.2 hu hupAll]
    show some (⟨name.data.asString, pySortedStr extras.dedup,
        [⟨.ge, lo.data.asString⟩, ⟨.lt, (u :: us).asString⟩]⟩ : Requirement) = _
    rw [data_asString_self, data_asString_self, ← hupd, data_asString_self]

/-- C8: a pin that already carries an upper-bound clause (`<`/`<=`)
comes back from `_add_upper_bound` unchanged, and consequently
`_add_upper_bound` is idempotent: whenever it succeeds, running it
again on its own output returns that output unchanged (a synthesized
result re-parses with a `<` clause, so the second run is a no-op). -/
theorem add_upper_bound_idempotent :
    (∀ (pin : String) (config : Config) (r : Requirement),
      parseRequirement pin = some r → r.specs.any hasUpperSpec = true →
      _add_upper_bound pin config = .ok pin) ∧
    (∀ (pin : String) (config : Config) (out : String),
      _add_upper_bound pin config = .ok out →
      _add_upper_bound out config = .ok out) := by
  have part1 : ∀ (pin : String) (config : Config) (r : Requirement),
      parseRequirement pin = some r → r.specs.any hasUpperSpec = true →
      _add_upper_bound pin config = .ok pin := by
    intro pin config r hp hub
    unfold _add_upper_bound
    rw [hp]
    show (if r.specs.any hasUpperSpec = true then Except.ok pin
      else match r.specs.find? (fun s => s.op == .ge) with
        | none => Except.error (PyErr.valueError
            ("Cannot add upper bound: no >= specifier found in " ++ pin))
        | some sp =>
          match parseVersion sp.version with
          | none => Except.error (PyErr.invalidVersion sp.version)
          | some (major, minor, micro) =>
            Except.ok (r.name ++ extrasStr r.extras ++ ">=" ++ sp.version ++ ","
              ++ "<" ++ synthUpper config.pinning_strategy major minor micro)) = Except.ok pin
    rw [if_pos hub]
  refine ⟨part1, ?_⟩
  intro pin config out h
  unfold _add_upper_bound at h
  cases hp : parseRequirement pin with
  | none => rw [hp] at h; cases h
  | some r =>
    rw [hp] at h
    replace h : (if r.specs.any hasUpperSpec = true then Except.ok pin
        else match r.specs.find? (fun s => s.op == .ge) with
          | none => Except.error (PyErr.valueError
              ("Cannot add upper bound: no >= specifier found in " ++ pin))
          | some sp =>
            match parseVersion sp.version with
            | none => Except.error (PyErr.invalidVersion sp.version)
            | some (major, minor, micro) =>
              Except.ok (r.name ++ extrasStr r.extras ++ ">=" ++ sp.version ++ ","
                ++ "<" ++ synthUpper config.pinning_strategy major minor micro))
        = Except.ok out := h
    by_cases hub : r.specs.any hasUpperSpec
    · rw [if_pos hub] at h
      injection h with h
      subst h
      exact part1 pin config r hp hub
    · rw [if_neg hub] at h
      cases hfind : r.specs.find? (fun s => s.op == .ge) with
      | none => rw [hfind] at h; cases h
      | some sp =>
        rw [hfind] at h
        replace h : (match parseVersion sp.version with
            | none => Except.error (PyErr.invalidVersion sp.version)
            | some (major, minor, micro) =>
              Except.ok (r.name ++ extrasStr r.extras ++ ">=" ++ sp.version ++ ","
                ++ "<" ++ synthUpper config.pinning_strategy major minor micro))
            = Except.ok out := h
        cases hv : parseVersion sp.version with
        | none => rw [hv] at h; cases h
        | some abc =>
          obtain ⟨a, b, c⟩ := abc
          rw [hv] at h
          replace h : Except.ok (r.name ++ extrasStr r.extras ++ ">=" ++ sp.version ++ ","
              ++ "<" ++ synthUpper config.pinning_strategy a b c) = Except.ok out := h
          injection h with h
          obtain ⟨hnm, hexf, hspf⟩ := parseRequirement_chars pin r hp
          have hspmem : sp ∈ r.specs := List.mem_of_find?_eq_some hfind
          obtain ⟨hlone, hloall⟩ := hspf sp hspmem
          obtain ⟨⟨uu, uus, hupd, hudig⟩, hupall⟩ :=
            synthUpper_chars config.pinning_strategy a b c
          have hune : uu ≠ '=' := by
            intro hcon
            rw [hcon] at hudig
            exact absurd hudig (by decide)
          have hupall' : ∀ ch ∈ uu :: uus, isVersionChar ch = true := by
            rw [← hupd]
            exact hupall
          have hre := parseRequirement_render r.name sp.version
            (synthUpper config.pinning_strategy a b c) uu uus r.extras
            hnm ⟨hlone, hloall⟩ hupd hune hupall' hexf
          subst h
          unfold _add_upper_bound
          rw [hre]
          rfl

/-- C8 witness: the no-op branch on a pin that already has `<`, and
idempotence on the synthesized output of `requests>=2.25.0`. -/
theorem add_upper_bound_idempotent_witness :
    _add_upper_bound "pandas>=1.3.0,<2" ⟨.major⟩ = .ok "pandas>=1.3.0,<2" ∧
    _add_upper_bound "requests>=2.25.0,<3.0.0" ⟨.major⟩
      = .ok "requests>=2.25.0,<3.0.0" := by
  constructor
  · exact add_upper_bound_idempotent.1 "pandas>=1.3.0,<2" ⟨.major⟩
      ⟨"pandas", [], [⟨.ge, "1.3.0"⟩, ⟨.lt, "2"⟩]⟩ (by decide) (by decide)
  · exact add_upper_bound_idempotent.2 "requests>=2.25.0" ⟨.major⟩
      "requests>=2.25.0,<3.0.0" rfl

end Pinnochio
